import Mathlib

/-!
Shallow embedding of the FinStack matching engine core (files
src/src/order_book.hpp, src/unnamed/part_001: the OrderBook translation
unit using the duplicate-id multimap and the MatchingEngine translation
unit consistent with src/src/matching_engine.hpp).

Modelling conventions:
* `uint64_t` quantities are `ℕ` together with the explicit `% 2 ^ 64`
  wherever C++ arithmetic can wrap (`remaining_size`, `fill`).
* `double` prices are `ℚ`; the core only compares prices (never adds
  them), and every comparison on exactly representable doubles agrees
  with the rational comparison.  `std::numeric_limits<double>::max()` is
  the exact rational `2 ^ 1024 - 2 ^ 971`.
* `std::shared_ptr<Order>` identity is modelled by a tag (an allocation
  number drawn from the book's `next_tag` counter); the side vectors hold
  tagged orders and the id multimap holds `(id, tag)` pairs, mirroring
  the second reference the C++ multimap keeps to the same heap object.
* `std::unordered_multimap` is modelled as an insertion-ordered list of
  pairs; `equal_range(k).first` becomes "first entry with key `k` in
  insertion order".  The C++ standard only guarantees that equivalent
  keys are adjacent and that existing equivalent entries keep their
  relative order; the position of a newly inserted duplicate inside its
  group is left to the library.  The model fixes the insertion-ordered
  reading that the repository's own comments ("Find the first order with
  this ID") and the specification assume.
* Wall-clock reads (`std::chrono::...now()`) are modelled by an explicit
  `now : ℕ` argument supplied by the caller of each operation.
* `std::sort` with the source's strict comparator may produce any
  permutation that is sorted for the induced non-strict relation; the
  model fixes insertion sort over that relation, one of the admissible
  outcomes (stable, equal keys keep arrival order).
-/

namespace FinStack

/-- The modulus of `uint64_t` arithmetic. -/
def U64 : ℕ := 2 ^ 64

/-- `enum class OrderSide` from order_book.hpp. -/
inductive OrderSide where
  | Buy
  | Sell
deriving DecidableEq, Repr

/-- `enum class OrderType` from order_book.hpp. -/
inductive OrderType where
  | Limit
  | Market
deriving DecidableEq, Repr

/-- `enum class OrderStatus` from order_book.hpp. -/
inductive OrderStatus where
  | New
  | PartiallyFilled
  | Filled
  | Cancelled
  | Rejected
deriving DecidableEq, Repr

/-- `struct Trade` from order_book.hpp. -/
structure Trade where
  order_id_buy : String
  order_id_sell : String
  size : ℕ
  price : ℚ
  timestamp : ℕ
deriving DecidableEq, Repr

/-- `struct Order` from order_book.hpp. -/
structure Order where
  order_id : String
  side : OrderSide
  type : OrderType
  symbol : String
  size : ℕ
  filled_size : ℕ
  price : ℚ
  timestamp : ℕ
  status : OrderStatus
deriving DecidableEq, Repr

/-- The exact rational value of `std::numeric_limits<double>::max()`. -/
def DBL_MAX : ℚ := 2 ^ 1024 - 2 ^ 971

/-- The limit-order constructor of `Order`. -/
def Order.mkLimit (id : String) (s : OrderSide) (sym : String)
    (sz : ℕ) (prc : ℚ) (time : ℕ) : Order :=
  ⟨id, s, OrderType.Limit, sym, sz, 0, prc, time, OrderStatus.New⟩

/-- The market-order constructor of `Order`: the price sentinel is
`DBL_MAX` for buys and `0.0` for sells. -/
def Order.mkMarket (id : String) (s : OrderSide) (sym : String)
    (sz : ℕ) (time : ℕ) : Order :=
  ⟨id, s, OrderType.Market, sym, sz, 0,
    if s = OrderSide.Buy then DBL_MAX else 0, time, OrderStatus.New⟩

/-- `Order::remaining_size`: `size - filled_size` in `uint64_t`
arithmetic (wraps modulo `2 ^ 64` when `filled_size > size`).  Fields are
`uint64_t` values, hence `< U64`. -/
def Order.remaining_size (o : Order) : ℕ :=
  (o.size + U64 - o.filled_size) % U64

/-- `Order::is_filled`: `filled_size >= size`. -/
def Order.is_filled (o : Order) : Bool :=
  o.size ≤ o.filled_size

/-- `Order::fill`: `filled_size += fill_size` (uint64 wrap), then the
status becomes `Filled` when complete and `PartiallyFilled` otherwise.
No over-fill check is performed by the source. -/
def Order.fill (o : Order) (fill_size : ℕ) : Order :=
  let o' := { o with filled_size := (o.filled_size + fill_size) % U64 }
  if o'.is_filled then { o' with status := OrderStatus.Filled }
  else { o' with status := OrderStatus.PartiallyFilled }

/-- A resting order: the order value together with the allocation tag
standing for the `shared_ptr` identity of the heap object. -/
structure Resting where
  tag : ℕ
  ord : Order
deriving DecidableEq, Repr

/-- The strict buy comparator of `OrderBook::sort_buy_orders`:
price descending, then timestamp ascending. -/
def buyLT (a b : Resting) : Bool :=
  if a.ord.price ≠ b.ord.price then decide (b.ord.price < a.ord.price)
  else decide (a.ord.timestamp < b.ord.timestamp)

/-- The strict sell comparator of `OrderBook::sort_sell_orders`:
price ascending, then timestamp ascending. -/
def sellLT (a b : Resting) : Bool :=
  if a.ord.price ≠ b.ord.price then decide (a.ord.price < b.ord.price)
  else decide (a.ord.timestamp < b.ord.timestamp)

/-- The non-strict relation a `std::sort` output satisfies for the buy
comparator: adjacent elements `a, b` have `¬ buyLT b a`. -/
def buyLE (a b : Resting) : Prop := buyLT b a = false

/-- The non-strict relation a `std::sort` output satisfies for the sell
comparator. -/
def sellLE (a b : Resting) : Prop := sellLT b a = false

instance : DecidableRel buyLE := fun a b => by
  unfold buyLE; infer_instance

instance : DecidableRel sellLE := fun a b => by
  unfold sellLE; infer_instance

theorem buyLE_iff (a b : Resting) :
    buyLE a b ↔
      b.ord.price < a.ord.price ∨
        (a.ord.price = b.ord.price ∧ a.ord.timestamp ≤ b.ord.timestamp) := by
  unfold buyLE buyLT
  by_cases h : b.ord.price = a.ord.price
  · simp [h, not_lt]
  · have h' : ¬ a.ord.price = b.ord.price := fun hh => h hh.symm
    simp [h, h']
    constructor
    · intro hle
      exact lt_of_le_of_ne hle h
    · exact le_of_lt

theorem sellLE_iff (a b : Resting) :
    sellLE a b ↔
      a.ord.price < b.ord.price ∨
        (a.ord.price = b.ord.price ∧ a.ord.timestamp ≤ b.ord.timestamp) := by
  unfold sellLE sellLT
  by_cases h : b.ord.price = a.ord.price
  · simp [h, not_lt]
  · have h' : ¬ a.ord.price = b.ord.price := fun hh => h hh.symm
    simp [h, h']
    constructor
    · intro hle
      exact lt_of_le_of_ne hle h'
    · exact le_of_lt

instance : IsTotal Resting buyLE := by
  constructor
  intro a b
  rw [buyLE_iff, buyLE_iff]
  rcases lt_trichotomy a.ord.price b.ord.price with h | h | h
  · exact Or.inr (Or.inl h)
  · rcases le_total a.ord.timestamp b.ord.timestamp with ht | ht
    · exact Or.inl (Or.inr ⟨h, ht⟩)
    · exact Or.inr (Or.inr ⟨h.symm, ht⟩)
  · exact Or.inl (Or.inl h)

instance : IsTrans Resting buyLE := by
  constructor
  intro a b c hab hbc
  rw [buyLE_iff] at hab hbc ⊢
  rcases hab with h1 | ⟨h1, h1t⟩
  · rcases hbc with h2 | ⟨h2, _⟩
    · exact Or.inl (h2.trans h1)
    · exact Or.inl (h2 ▸ h1)
  · rcases hbc with h2 | ⟨h2, h2t⟩
    · exact Or.inl (h1 ▸ h2)
    · exact Or.inr ⟨h1.trans h2, le_trans h1t h2t⟩

instance : IsTotal Resting sellLE := by
  constructor
  intro a b
  rw [sellLE_iff, sellLE_iff]
  rcases lt_trichotomy a.ord.price b.ord.price with h | h | h
  · exact Or.inl (Or.inl h)
  · rcases le_total a.ord.timestamp b.ord.timestamp with ht | ht
    · exact Or.inl (Or.inr ⟨h, ht⟩)
    · exact Or.inr (Or.inr ⟨h.symm, ht⟩)
  · exact Or.inr (Or.inl h)

instance : IsTrans Resting sellLE := by
  constructor
  intro a b c hab hbc
  rw [sellLE_iff] at hab hbc ⊢
  rcases hab with h1 | ⟨h1, h1t⟩
  · rcases hbc with h2 | ⟨h2, _⟩
    · exact Or.inl (h1.trans h2)
    · exact Or.inl (h2 ▸ h1)
  · rcases hbc with h2 | ⟨h2, h2t⟩
    · exact Or.inl (h1 ▸ h2)
    · exact Or.inr ⟨h1.trans h2, le_trans h1t h2t⟩

/-- `OrderBook::sort_buy_orders`: one admissible `std::sort` outcome for
the strict buy comparator (sorted for `buyLE`, a permutation of the
input, equal keys kept in arrival order). -/
def sort_buy_orders (l : List Resting) : List Resting :=
  l.insertionSort buyLE

/-- `OrderBook::sort_sell_orders`. -/
def sort_sell_orders (l : List Resting) : List Resting :=
  l.insertionSort sellLE

/-- The state of `class OrderBook`.  `next_tag` is the allocation
counter producing fresh `shared_ptr` identities; it has no C++ field
counterpart. -/
structure OrderBook where
  symbol : String
  buy_orders : List Resting
  sell_orders : List Resting
  order_map : List (String × ℕ)
  last_update_time : ℕ
  next_tag : ℕ
deriving DecidableEq, Repr

/-- The `OrderBook(std::string)` constructor: empty sides, empty id
multimap, `last_update_time = 0`. -/
def OrderBook.empty (sym : String) : OrderBook :=
  ⟨sym, [], [], [], 0, 0⟩

/-- `OrderBook::add_order`: registers the order in the id multimap
(duplicates allowed, appended in insertion order), pushes it onto the
side vector matching `order->side`, re-sorts that vector, and stamps
`last_update_time`. -/
def OrderBook.add_order (b : OrderBook) (o : Order) (now : ℕ) : OrderBook :=
  let r : Resting := ⟨b.next_tag, o⟩
  let m := b.order_map ++ [(o.order_id, b.next_tag)]
  if o.side = OrderSide.Buy then
    { b with
      buy_orders := sort_buy_orders (b.buy_orders ++ [r])
      order_map := m
      last_update_time := now
      next_tag := b.next_tag + 1 }
  else
    { b with
      sell_orders := sort_sell_orders (b.sell_orders ++ [r])
      order_map := m
      last_update_time := now
      next_tag := b.next_tag + 1 }

/-- Erase the first element carrying `tag` from a side vector
(`std::find_if` by pointer identity followed by `erase`); no-op when the
tag is absent, exactly as the guarded erase in the source. -/
def eraseTag : List Resting → ℕ → List Resting
  | [], _ => []
  | r :: rs, t => if r.tag = t then rs else r :: eraseTag rs t

/-- `OrderBook::cancel_order`: looks up the first id-multimap entry for
`order_id` (`equal_range(...).first`), removes the pointed-to order from
the side vector named by its `side` field, erases that single multimap
entry, stamps `last_update_time`, and returns `true`; returns `false`
without any mutation when no entry exists.  (The `status = Cancelled`
write mutates the removed heap object, which the book no longer
references.) -/
def OrderBook.cancel_order (b : OrderBook) (order_id : String) (now : ℕ) :
    Bool × OrderBook :=
  match b.order_map.find? (fun e => e.1 = order_id) with
  | none => (false, b)
  | some e =>
    match (b.buy_orders ++ b.sell_orders).find? (fun r => r.tag = e.2) with
    | some r =>
      if r.ord.side = OrderSide.Buy then
        (true, { b with
          buy_orders := eraseTag b.buy_orders e.2
          order_map := b.order_map.erase e
          last_update_time := now })
      else
        (true, { b with
          sell_orders := eraseTag b.sell_orders e.2
          order_map := b.order_map.erase e
          last_update_time := now })
    | none =>
      (true, { b with
        order_map := b.order_map.erase e
        last_update_time := now })

/-- The `price_matches` condition of `OrderBook::match_order`: a buy
taker crosses when its price is at least the maker's, a sell taker when
its price is at most the maker's. -/
def priceMatches (inc : Order) (maker : Resting) : Bool :=
  if inc.side = OrderSide.Buy then decide (maker.ord.price ≤ inc.price)
  else decide (inc.price ≤ maker.ord.price)

/-- The result of the matching loop: trades in emission order, the
incoming order's final state, the contra side remainder, and the id
multimap remainder. -/
structure MatchRes where
  trades : List Trade
  incoming : Order
  contra : List Resting
  omap : List (String × ℕ)
deriving DecidableEq, Repr

/-- The `while` loop of `OrderBook::match_order` (multimap revision):
while the contra side is non-empty and the incoming order is not filled,
cross-check against the head maker; on a cross fill both orders by
`min(incoming.remaining, maker.remaining)`, emit a trade at the maker's
price, and when the maker is now filled pop it from the side and erase
its multimap entry.  In the branch where the maker is only partially
filled the loop re-tests its condition and exits because every
`uint64_t`-valid incoming order is then filled; the model returns
directly. -/
def matchLoop (inc : Order) (contra : List Resting)
    (omap : List (String × ℕ)) (now : ℕ) : MatchRes :=
  match contra with
  | [] => ⟨[], inc, [], omap⟩
  | maker :: rest =>
    if inc.is_filled then ⟨[], inc, maker :: rest, omap⟩
    else
      if inc.type = OrderType.Market ∨ priceMatches inc maker then
        let fill_size := min inc.remaining_size maker.ord.remaining_size
        let trade_price := maker.ord.price
        let inc' := inc.fill fill_size
        let maker' : Resting := ⟨maker.tag, maker.ord.fill fill_size⟩
        let tr : Trade :=
          if inc.side = OrderSide.Buy then
            ⟨inc.order_id, maker.ord.order_id, fill_size, trade_price, now⟩
          else
            ⟨maker.ord.order_id, inc.order_id, fill_size, trade_price, now⟩
        if maker'.ord.is_filled then
          let res := matchLoop inc' rest
            (omap.erase (maker.ord.order_id, maker.tag)) now
          ⟨tr :: res.trades, res.incoming, res.contra, res.omap⟩
        else
          ⟨[tr], inc', maker' :: rest, omap⟩
      else ⟨[], inc, maker :: rest, omap⟩

/-- `OrderBook::match_order` (multimap revision): runs the loop against
the side opposite the incoming order, stamps `last_update_time`, and
returns the trades.  It never adds the incoming order to the book.  The
incoming order's final state (mutated in place in C++) is returned
alongside. -/
def OrderBook.match_order (b : OrderBook) (inc : Order) (now : ℕ) :
    List Trade × Order × OrderBook :=
  if inc.side = OrderSide.Buy then
    let res := matchLoop inc b.sell_orders b.order_map now
    (res.trades, res.incoming,
      { b with
        sell_orders := res.contra
        order_map := res.omap
        last_update_time := now })
  else
    let res := matchLoop inc b.buy_orders b.order_map now
    (res.trades, res.incoming,
      { b with
        buy_orders := res.contra
        order_map := res.omap
        last_update_time := now })

/-- `OrderBook::best_bid`: front of the buy vector, `0.0` when empty. -/
def OrderBook.best_bid (b : OrderBook) : ℚ :=
  match b.buy_orders with
  | [] => 0
  | r :: _ => r.ord.price

/-- `OrderBook::best_ask`: front of the sell vector, `DBL_MAX` when
empty. -/
def OrderBook.best_ask (b : OrderBook) : ℚ :=
  match b.sell_orders with
  | [] => DBL_MAX
  | r :: _ => r.ord.price

example :
    (Order.mkLimit "B" OrderSide.Buy "T" 100 10 1).remaining_size = 100 := by
  decide

example :
    ((Order.mkLimit "B" OrderSide.Buy "T" 100 10 1).fill 40).remaining_size
      = 60 := by
  decide

/-- The state of `class MatchingEngine`: the symbol-to-book map (unique
keys, creation order) and the id-to-symbol multimap (insertion-ordered,
duplicates allowed).  The observer list carries no state the claims
touch: `notify_trade` iterates the returned trade list in order, so
observers see the trades exactly in list order. -/
structure MatchingEngine where
  order_books : List (String × OrderBook)
  order_id_to_symbol : List (String × String)
deriving DecidableEq, Repr

/-- The `MatchingEngine()` constructor. -/
def MatchingEngine.empty : MatchingEngine := ⟨[], []⟩

/-- `order_books_.find(symbol)`. -/
def findBook (books : List (String × OrderBook)) (sym : String) :
    Option (String × OrderBook) :=
  books.find? (fun p => p.1 = sym)

/-- Write an updated book back at its symbol (in C++ the book is mutated
through the `shared_ptr` held in the map). -/
def updateBook (books : List (String × OrderBook)) (sym : String)
    (bk : OrderBook) : List (String × OrderBook) :=
  books.map (fun p => if p.1 = sym then (p.1, bk) else p)

/-- `MatchingEngine::add_order_book`: create a fresh book for the symbol
unless one exists. -/
def MatchingEngine.add_order_book (E : MatchingEngine) (sym : String) :
    MatchingEngine :=
  match findBook E.order_books sym with
  | some _ => E
  | none =>
    { E with order_books := E.order_books ++ [(sym, OrderBook.empty sym)] }

/-- `MatchingEngine::place_limit_order` (multimap revision): look up the
book (empty result if the symbol is unknown), create a limit order with
a fresh timestamp, register `id ↦ symbol` in the engine multimap BEFORE
matching, match, append the order to the book iff it is not fully
filled, and return the trades (observers are notified of each trade in
list order).  The stale multimap entry of a fully filled order is NOT
removed. -/
def MatchingEngine.place_limit_order (E : MatchingEngine) (sym : String)
    (order_id : String) (side : OrderSide) (size : ℕ) (price : ℚ)
    (now : ℕ) : List Trade × MatchingEngine :=
  match findBook E.order_books sym with
  | none => ([], E)
  | some p =>
    let o := Order.mkLimit order_id side sym size price now
    let idx := E.order_id_to_symbol ++ [(order_id, sym)]
    let res := p.2.match_order o now
    let bk :=
      if res.2.1.is_filled then res.2.2 else res.2.2.add_order res.2.1 now
    (res.1,
      { order_books := updateBook E.order_books sym bk
        order_id_to_symbol := idx })

/-- `MatchingEngine::place_market_order` (multimap revision): look up
the book, create a market order, match, and return the trades.  No
id-to-symbol entry is stored and the order is never added to a book. -/
def MatchingEngine.place_market_order (E : MatchingEngine) (sym : String)
    (order_id : String) (side : OrderSide) (size : ℕ) (now : ℕ) :
    List Trade × MatchingEngine :=
  match findBook E.order_books sym with
  | none => ([], E)
  | some p =>
    let o := Order.mkMarket order_id side sym size now
    let res := p.2.match_order o now
    (res.1, { E with order_books := updateBook E.order_books sym res.2.2 })

/-- `MatchingEngine::cancel_order` (multimap revision): take the first
id-to-symbol entry for the id (`equal_range(...).first`), find its book,
delegate to `OrderBook::cancel_order`, and remove that single engine
entry exactly when the book cancel succeeded. -/
def MatchingEngine.cancel_order (E : MatchingEngine) (order_id : String)
    (now : ℕ) : Bool × MatchingEngine :=
  match E.order_id_to_symbol.find? (fun e => e.1 = order_id) with
  | none => (false, E)
  | some e =>
    match findBook E.order_books e.2 with
    | none => (false, E)
    | some p =>
      let res := p.2.cancel_order order_id now
      if res.1 then
        (true,
          { order_books := updateBook E.order_books e.2 res.2
            order_id_to_symbol := E.order_id_to_symbol.erase e })
      else
        (false, { E with order_books := updateBook E.order_books e.2 res.2 })

/-- Book states reachable by the public `OrderBook` operations from a
fresh book.  `add` carries the documented contract of
`OrderBook::add_order` (a limit order of the book's symbol with
`0 < remaining`, i.e. a well-formed `uint64_t` order with
`filled_size < size`); `match_order` accepts any inbound well-formed
order.  Nothing restricts order ids, so distinct resting orders may
share one id. -/
inductive Reach (sym : String) : OrderBook → Prop
  | init : Reach sym (OrderBook.empty sym)
  | add (b : OrderBook) (o : Order) (now : ℕ) :
      Reach sym b →
      o.type = OrderType.Limit →
      o.symbol = sym →
      o.filled_size < o.size →
      o.size < U64 →
      Reach sym (b.add_order o now)
  | cancel (b : OrderBook) (id : String) (now : ℕ) :
      Reach sym b →
      Reach sym (b.cancel_order id now).2
  | matchOp (b : OrderBook) (o : Order) (now : ℕ) :
      Reach sym b →
      o.filled_size ≤ o.size →
      o.size < U64 →
      Reach sym (b.match_order o now).2.2

theorem fill_price (o : Order) (n : ℕ) : (o.fill n).price = o.price := by
  unfold Order.fill
  dsimp only
  split <;> rfl

theorem fill_timestamp (o : Order) (n : ℕ) :
    (o.fill n).timestamp = o.timestamp := by
  unfold Order.fill
  dsimp only
  split <;> rfl

theorem fill_side (o : Order) (n : ℕ) : (o.fill n).side = o.side := by
  unfold Order.fill
  dsimp only
  split <;> rfl

theorem fill_type (o : Order) (n : ℕ) : (o.fill n).type = o.type := by
  unfold Order.fill
  dsimp only
  split <;> rfl

theorem fill_order_id (o : Order) (n : ℕ) :
    (o.fill n).order_id = o.order_id := by
  unfold Order.fill
  dsimp only
  split <;> rfl

theorem fill_size_field (o : Order) (n : ℕ) : (o.fill n).size = o.size := by
  unfold Order.fill
  dsimp only
  split <;> rfl

theorem fill_filled_size (o : Order) (n : ℕ) :
    (o.fill n).filled_size = (o.filled_size + n) % U64 := by
  unfold Order.fill
  dsimp only
  split <;> rfl

theorem remaining_size_eq (o : Order) (h1 : o.filled_size ≤ o.size)
    (h2 : o.size < U64) : o.remaining_size = o.size - o.filled_size := by
  unfold Order.remaining_size
  rw [Nat.sub_add_comm h1, Nat.add_mod_right]
  exact Nat.mod_eq_of_lt (lt_of_le_of_lt (Nat.sub_le _ _) h2)

theorem fill_remaining (o : Order) (q : ℕ) (h1 : o.filled_size ≤ o.size)
    (h2 : o.size < U64) (hq : q ≤ o.remaining_size) :
    (o.fill q).remaining_size = o.remaining_size - q := by
  rw [remaining_size_eq o h1 h2] at hq ⊢
  have hle : o.filled_size + q ≤ o.size := by omega
  have hmod : (o.filled_size + q) % U64 = o.filled_size + q :=
    Nat.mod_eq_of_lt (lt_of_le_of_lt hle h2)
  have hsz : (o.fill q).size = o.size := fill_size_field o q
  have hfs : (o.fill q).filled_size = o.filled_size + q := by
    rw [fill_filled_size, hmod]
  rw [remaining_size_eq (o.fill q) (by rw [hfs, hsz]; exact hle)
    (by rw [hsz]; exact h2), hfs, hsz]
  omega

theorem fill_filled_le (o : Order) (q : ℕ) (h1 : o.filled_size ≤ o.size)
    (h2 : o.size < U64) (hq : q ≤ o.remaining_size) :
    (o.fill q).filled_size ≤ (o.fill q).size := by
  rw [remaining_size_eq o h1 h2] at hq
  rw [fill_filled_size, fill_size_field,
    Nat.mod_eq_of_lt (lt_of_le_of_lt (by omega : o.filled_size + q ≤ o.size) h2)]
  omega

/-- The makers engaged by the successive iterations of the matching
loop: the contra-side head at each trade-emitting iteration, mirroring
the recursion of `matchLoop` (whose trade list pairs up with this list
index by index). -/
def matchMakers (inc : Order) : List Resting → List Resting
  | [] => []
  | maker :: rest =>
    if inc.is_filled then []
    else
      if inc.type = OrderType.Market ∨ priceMatches inc maker then
        if (maker.ord.fill
            (min inc.remaining_size maker.ord.remaining_size)).is_filled then
          maker ::
            matchMakers
              (inc.fill (min inc.remaining_size maker.ord.remaining_size))
              rest
        else [maker]
      else []

theorem matchMakers_take (inc : Order) :
    ∀ contra : List Resting,
      matchMakers inc contra = contra.take (matchMakers inc contra).length
  | [] => by simp [matchMakers]
  | maker :: rest => by
    rw [matchMakers]
    by_cases h1 : inc.is_filled
    · simp [h1]
    · simp only [h1, Bool.false_eq_true, if_false]
      by_cases h2 : inc.type = OrderType.Market ∨ priceMatches inc maker
      · rw [if_pos h2]
        by_cases h3 : (maker.ord.fill
            (min inc.remaining_size maker.ord.remaining_size)).is_filled
        · simp only [h3, if_true, List.length_cons, List.take_succ_cons,
            List.cons.injEq, true_and]
          exact matchMakers_take _ rest
        · simp [h3]
      · simp [h2]

/-- Index-wise correspondence of emitted trades and engaged makers:
equal lengths, each trade priced at its maker's price and stamped `now`,
with buy/sell ids assigned from the taker's side. -/
theorem matchLoop_trades_makers (s : OrderSide) (iid : String) :
    ∀ (contra : List Resting) (inc : Order) (omap : List (String × ℕ))
      (now : ℕ), inc.side = s → inc.order_id = iid →
      List.Forall₂
        (fun (tr : Trade) (mk : Resting) =>
          tr.price = mk.ord.price ∧ tr.timestamp = now ∧
          (s = OrderSide.Buy →
            tr.order_id_buy = iid ∧ tr.order_id_sell = mk.ord.order_id) ∧
          (s = OrderSide.Sell →
            tr.order_id_buy = mk.ord.order_id ∧ tr.order_id_sell = iid))
        (matchLoop inc contra omap now).trades (matchMakers inc contra)
  | [], inc, omap, now, _, _ => by
    simp [matchLoop, matchMakers]
  | maker :: rest, inc, omap, now, hs, hid => by
    rw [matchLoop, matchMakers]
    by_cases h1 : inc.is_filled
    · simp [h1]
    · simp only [h1, Bool.false_eq_true, if_false]
      by_cases h2 : inc.type = OrderType.Market ∨ priceMatches inc maker
      · rw [if_pos h2, if_pos h2]
        by_cases h3 : (maker.ord.fill
            (min inc.remaining_size maker.ord.remaining_size)).is_filled
        · simp only [h3, if_true]
          refine List.Forall₂.cons ?_ ?_
          · subst hs hid
            refine ⟨?_, ?_, ?_, ?_⟩
            · split <;> rfl
            · split <;> rfl
            · intro hb
              rw [if_pos hb]
              exact ⟨rfl, rfl⟩
            · intro hb
              rw [if_neg (by rw [hb]; intro hc; cases hc)]
              exact ⟨rfl, rfl⟩
          · exact matchLoop_trades_makers s iid rest
              (inc.fill (min inc.remaining_size maker.ord.remaining_size)) _
              now (by rw [fill_side]; exact hs)
              (by rw [fill_order_id]; exact hid)
        · simp only [h3, Bool.false_eq_true, if_false]
          refine List.Forall₂.cons ?_ List.Forall₂.nil
          subst hs hid
          refine ⟨?_, ?_, ?_, ?_⟩
          · split <;> rfl
          · split <;> rfl
          · intro hb
            rw [if_pos hb]
            exact ⟨rfl, rfl⟩
          · intro hb
            rw [if_neg (by rw [hb]; intro hc; cases hc)]
            exact ⟨rfl, rfl⟩
      · simp [h2]

theorem sellLT_irrefl (a : Resting) : sellLT a a = false := by
  simp [sellLT]

theorem buyLT_irrefl (a : Resting) : buyLT a a = false := by
  simp [buyLT]

theorem pairwise_get_lt_false {lt' : Resting → Resting → Bool}
    {l : List Resting} (h : l.Pairwise (fun a b => lt' b a = false)) :
    ∀ (i j : ℕ) (hi : i < l.length) (hj : j < l.length), i < j →
      lt' (l.get ⟨j, hj⟩) (l.get ⟨i, hi⟩) = false :=
  fun i j hi hj hij => List.pairwise_iff_get.mp h ⟨i, hi⟩ ⟨j, hj⟩ hij

theorem pairwise_get_lt_true {lt' : Resting → Resting → Bool}
    {l : List Resting} (h : l.Pairwise (fun a b => lt' b a = false))
    (hirr : ∀ a, lt' a a = false) :
    ∀ (i j : ℕ) (hi : i < l.length) (hj : j < l.length),
      lt' (l.get ⟨i, hi⟩) (l.get ⟨j, hj⟩) = true → i < j := by
  intro i j hi hj hlt
  rcases Nat.lt_trichotomy i j with hij | hij | hij
  · exact hij
  · subst hij
    rw [hirr] at hlt
    cases hlt
  · rw [pairwise_get_lt_false h j i hj hi hij] at hlt
    cases hlt

/-- Claim C1.  In any iteration of the matching loop of
`OrderBook::match_order` whose loop state is an unfilled incoming order
facing a contra side headed by `maker`, with the cross check passing:
the emitted trade (the head of the produced trade list) has
`size = min(incoming.remaining, maker.remaining)` computed before the
fill and carries the maker's price (not the taker's), and the fill the
loop applies to each of the two orders (`Order.fill` by that quantity)
reduces that order's remaining by exactly the executed quantity. -/
theorem C1_match_fill_exact (inc : Order) (maker : Resting)
    (rest : List Resting) (omap : List (String × ℕ)) (now : ℕ)
    (hni : inc.is_filled = false)
    (hcross : inc.type = OrderType.Market ∨ priceMatches inc maker = true)
    (hi1 : inc.filled_size ≤ inc.size) (hi2 : inc.size < U64)
    (hm1 : maker.ord.filled_size ≤ maker.ord.size)
    (hm2 : maker.ord.size < U64) :
    (matchLoop inc (maker :: rest) omap now).trades.head? =
      some
        (if inc.side = OrderSide.Buy then
          ⟨inc.order_id, maker.ord.order_id,
            min inc.remaining_size maker.ord.remaining_size,
            maker.ord.price, now⟩
        else
          ⟨maker.ord.order_id, inc.order_id,
            min inc.remaining_size maker.ord.remaining_size,
            maker.ord.price, now⟩) ∧
    (inc.fill (min inc.remaining_size maker.ord.remaining_size)).remaining_size
      = inc.remaining_size
        - min inc.remaining_size maker.ord.remaining_size ∧
    (maker.ord.fill
        (min inc.remaining_size maker.ord.remaining_size)).remaining_size
      = maker.ord.remaining_size
        - min inc.remaining_size maker.ord.remaining_size := by
  refine ⟨?_, ?_, ?_⟩
  · rw [matchLoop]
    simp only [hni, Bool.false_eq_true, if_false]
    rw [if_pos hcross]
    split <;> rfl
  · exact fill_remaining inc _ hi1 hi2 (Nat.min_le_left _ _)
  · exact fill_remaining maker.ord _ hm1 hm2 (Nat.min_le_right _ _)

theorem C1_witness :
    (Order.mkLimit "B" OrderSide.Buy "T" 100 10 2).is_filled = false ∧
    ((Order.mkLimit "B" OrderSide.Buy "T" 100 10 2).type = OrderType.Market ∨
      priceMatches (Order.mkLimit "B" OrderSide.Buy "T" 100 10 2)
        ⟨0, Order.mkLimit "S" OrderSide.Sell "T" 60 9 1⟩ = true) ∧
    (matchLoop (Order.mkLimit "B" OrderSide.Buy "T" 100 10 2)
        [⟨0, Order.mkLimit "S" OrderSide.Sell "T" 60 9 1⟩] [("S", 0)]
        5).trades.head? =
      some
        (if (Order.mkLimit "B" OrderSide.Buy "T" 100 10 2).side
            = OrderSide.Buy then
          ⟨(Order.mkLimit "B" OrderSide.Buy "T" 100 10 2).order_id,
            (Order.mkLimit "S" OrderSide.Sell "T" 60 9 1).order_id,
            min (Order.mkLimit "B" OrderSide.Buy "T" 100 10 2).remaining_size
              (Order.mkLimit "S" OrderSide.Sell "T" 60 9 1).remaining_size,
            (Order.mkLimit "S" OrderSide.Sell "T" 60 9 1).price, 5⟩
        else
          ⟨(Order.mkLimit "S" OrderSide.Sell "T" 60 9 1).order_id,
            (Order.mkLimit "B" OrderSide.Buy "T" 100 10 2).order_id,
            min (Order.mkLimit "B" OrderSide.Buy "T" 100 10 2).remaining_size
              (Order.mkLimit "S" OrderSide.Sell "T" 60 9 1).remaining_size,
            (Order.mkLimit "S" OrderSide.Sell "T" 60 9 1).price, 5⟩) :=
  ⟨by decide, Or.inr (by decide),
    (C1_match_fill_exact (Order.mkLimit "B" OrderSide.Buy "T" 100 10 2)
      ⟨0, Order.mkLimit "S" OrderSide.Sell "T" 60 9 1⟩ [] [("S", 0)] 5
      (by decide) (Or.inr (by decide)) (by decide)
      (by norm_num [Order.mkLimit, U64]) (by decide)
      (by norm_num [Order.mkLimit, U64])).1⟩

/-- Claim C2, corrected.  For trades of one `match_order` call (which is
what one `place_limit_order` or `place_market_order` call returns and
hands to the observers in list order) on a book whose contra side is
sorted, pairing trade `i` with the `i`-th engaged maker: an
earlier-emitted trade's maker is never of strictly lower price-time
priority (strictly better price first, earlier timestamp at equal
price), and a strictly higher-priority maker always trades earlier.
The original claim's "if and only if" additionally requires a strictly
higher-priority maker for every earlier trade, which fails when two
makers tie on both price and timestamp
(`C2_strict_iff_counterexample`). -/
theorem C2_trades_follow_maker_priority (b : OrderBook) (inc : Order)
    (now : ℕ) (contra mk : List Resting)
    (hcontra : contra =
      if inc.side = OrderSide.Buy then b.sell_orders else b.buy_orders)
    (hmk : mk = matchMakers inc contra)
    (hsorted :
      if inc.side = OrderSide.Buy then b.sell_orders.Pairwise sellLE
      else b.buy_orders.Pairwise buyLE) :
    ((b.match_order inc now).1.length = mk.length) ∧
    (∀ (i j : ℕ) (hi : i < mk.length) (hj : j < mk.length), i < j →
      (if inc.side = OrderSide.Buy then sellLT else buyLT)
        (mk.get ⟨j, hj⟩) (mk.get ⟨i, hi⟩) = false) ∧
    (∀ (i j : ℕ) (hi : i < mk.length) (hj : j < mk.length),
      (if inc.side = OrderSide.Buy then sellLT else buyLT)
        (mk.get ⟨i, hi⟩) (mk.get ⟨j, hj⟩) = true → i < j) ∧
    (∀ (i : ℕ) (hi : i < (b.match_order inc now).1.length)
      (hi' : i < mk.length),
      ((b.match_order inc now).1.get ⟨i, hi⟩).price
        = (mk.get ⟨i, hi'⟩).ord.price ∧
      ((b.match_order inc now).1.get ⟨i, hi⟩).timestamp = now ∧
      (inc.side = OrderSide.Buy →
        ((b.match_order inc now).1.get ⟨i, hi⟩).order_id_buy = inc.order_id ∧
        ((b.match_order inc now).1.get ⟨i, hi⟩).order_id_sell
          = (mk.get ⟨i, hi'⟩).ord.order_id) ∧
      (inc.side = OrderSide.Sell →
        ((b.match_order inc now).1.get ⟨i, hi⟩).order_id_buy
          = (mk.get ⟨i, hi'⟩).ord.order_id ∧
        ((b.match_order inc now).1.get ⟨i, hi⟩).order_id_sell
          = inc.order_id)) := by
  by_cases hside : inc.side = OrderSide.Buy
  · have hcontra' : contra = b.sell_orders := by
      rw [hcontra, if_pos hside]
    subst hcontra'
    have hsorted' : b.sell_orders.Pairwise sellLE := by
      rw [if_pos hside] at hsorted
      exact hsorted
    have hmatch : (b.match_order inc now).1 =
        (matchLoop inc b.sell_orders b.order_map now).trades := by
      rw [OrderBook.match_order, if_pos hside]
    have hF := matchLoop_trades_makers OrderSide.Buy inc.order_id
      b.sell_orders inc b.order_map now hside rfl
    rw [← hmk] at hF
    have hpw : mk.Pairwise sellLE := by
      rw [hmk, matchMakers_take inc b.sell_orders]
      exact hsorted'.sublist (List.take_sublist _ _)
    have hifB :
        (if inc.side = OrderSide.Buy then sellLT else buyLT) = sellLT := by
      rw [if_pos hside]
    refine ⟨?_, ?_, ?_, ?_⟩
    · rw [hmatch]
      exact hF.length_eq
    · intro i j hi hj hij
      rw [hifB]
      exact pairwise_get_lt_false hpw i j hi hj hij
    · intro i j hi hj
      rw [hifB]
      exact pairwise_get_lt_true hpw sellLT_irrefl i j hi hj
    · intro i hi hi'
      have hi2 :
          i < (matchLoop inc b.sell_orders b.order_map now).trades.length := by
        rw [← hmatch]
        exact hi
      have hg := hF.get hi2 hi'
      have hgetEq :
          (b.match_order inc now).1.get ⟨i, hi⟩ =
            (matchLoop inc b.sell_orders b.order_map now).trades.get
              ⟨i, hi2⟩ := by
        revert hi
        rw [hmatch]
        intro hi
        rfl
      rw [hgetEq]
      refine ⟨hg.1, hg.2.1, fun _ => hg.2.2.1 rfl, fun hb => ?_⟩
      rw [hb] at hside
      cases hside
  · have hcontra' : contra = b.buy_orders := by
      rw [hcontra, if_neg hside]
    subst hcontra'
    have hside' : inc.side = OrderSide.Sell := by
      cases hv : inc.side
      · exact absurd hv hside
      · rfl
    have hsorted' : b.buy_orders.Pairwise buyLE := by
      rw [if_neg hside] at hsorted
      exact hsorted
    have hmatch : (b.match_order inc now).1 =
        (matchLoop inc b.buy_orders b.order_map now).trades := by
      rw [OrderBook.match_order, if_neg hside]
    have hF := matchLoop_trades_makers OrderSide.Sell inc.order_id
      b.buy_orders inc b.order_map now hside' rfl
    rw [← hmk] at hF
    have hpw : mk.Pairwise buyLE := by
      rw [hmk, matchMakers_take inc b.buy_orders]
      exact hsorted'.sublist (List.take_sublist _ _)
    have hifS :
        (if inc.side = OrderSide.Buy then sellLT else buyLT) = buyLT := by
      rw [if_neg hside]
    refine ⟨?_, ?_, ?_, ?_⟩
    · rw [hmatch]
      exact hF.length_eq
    · intro i j hi hj hij
      rw [hifS]
      exact pairwise_get_lt_false hpw i j hi hj hij
    · intro i j hi hj
      rw [hifS]
      exact pairwise_get_lt_true hpw buyLT_irrefl i j hi hj
    · intro i hi hi'
      have hi2 :
          i < (matchLoop inc b.buy_orders b.order_map now).trades.length := by
        rw [← hmatch]
        exact hi
      have hg := hF.get hi2 hi'
      have hgetEq :
          (b.match_order inc now).1.get ⟨i, hi⟩ =
            (matchLoop inc b.buy_orders b.order_map now).trades.get
              ⟨i, hi2⟩ := by
        revert hi
        rw [hmatch]
        intro hi
        rfl
      rw [hgetEq]
      refine ⟨hg.1, hg.2.1, fun hb => ?_, fun _ => hg.2.2.2 rfl⟩
      rw [hb] at hside'
      cases hside'

theorem C2_witness :
    ([⟨0, Order.mkLimit "S3" OrderSide.Sell "T" 100 9 3⟩,
      ⟨1, Order.mkLimit "S1" OrderSide.Sell "T" 100 10 1⟩] =
      if (Order.mkLimit "B1" OrderSide.Buy "T" 200 10 4).side
        = OrderSide.Buy then
        (OrderBook.mk "T" []
          [⟨0, Order.mkLimit "S3" OrderSide.Sell "T" 100 9 3⟩,
            ⟨1, Order.mkLimit "S1" OrderSide.Sell "T" 100 10 1⟩]
          [("S3", 0), ("S1", 1)] 0 2).sell_orders
      else
        (OrderBook.mk "T" []
          [⟨0, Order.mkLimit "S3" OrderSide.Sell "T" 100 9 3⟩,
            ⟨1, Order.mkLimit "S1" OrderSide.Sell "T" 100 10 1⟩]
          [("S3", 0), ("S1", 1)] 0 2).buy_orders) ∧
    ((OrderBook.mk "T" []
        [⟨0, Order.mkLimit "S3" OrderSide.Sell "T" 100 9 3⟩,
          ⟨1, Order.mkLimit "S1" OrderSide.Sell "T" 100 10 1⟩]
        [("S3", 0), ("S1", 1)] 0 2).match_order
      (Order.mkLimit "B1" OrderSide.Buy "T" 200 10 4) 5).1.length =
      (matchMakers (Order.mkLimit "B1" OrderSide.Buy "T" 200 10 4)
        [⟨0, Order.mkLimit "S3" OrderSide.Sell "T" 100 9 3⟩,
          ⟨1, Order.mkLimit "S1" OrderSide.Sell "T" 100 10 1⟩]).length :=
  ⟨by decide,
    (C2_trades_follow_maker_priority
      (OrderBook.mk "T" []
        [⟨0, Order.mkLimit "S3" OrderSide.Sell "T" 100 9 3⟩,
          ⟨1, Order.mkLimit "S1" OrderSide.Sell "T" 100 10 1⟩]
        [("S3", 0), ("S1", 1)] 0 2)
      (Order.mkLimit "B1" OrderSide.Buy "T" 200 10 4) 5
      [⟨0, Order.mkLimit "S3" OrderSide.Sell "T" 100 9 3⟩,
        ⟨1, Order.mkLimit "S1" OrderSide.Sell "T" 100 10 1⟩]
      (matchMakers (Order.mkLimit "B1" OrderSide.Buy "T" 200 10 4)
        [⟨0, Order.mkLimit "S3" OrderSide.Sell "T" 100 9 3⟩,
          ⟨1, Order.mkLimit "S1" OrderSide.Sell "T" 100 10 1⟩])
      (by decide) rfl (by decide)).1⟩

/-- Claim C2's strict "if and only if" fails on the code: two resting
sells tie on both price and timestamp, a crossing buy trades with both,
and the first-emitted trade's maker has no strictly higher priority
than the second's (the source comparator returns false both ways). -/
theorem C2_strict_iff_counterexample :
    ((OrderBook.mk "T" []
        [⟨0, Order.mkLimit "S1" OrderSide.Sell "T" 100 10 7⟩,
          ⟨1, Order.mkLimit "S2" OrderSide.Sell "T" 100 10 7⟩]
        [("S1", 0), ("S2", 1)] 0 2).match_order
      (Order.mkLimit "B" OrderSide.Buy "T" 200 10 8) 9).1 =
      [⟨"B", "S1", 100, 10, 9⟩, ⟨"B", "S2", 100, 10, 9⟩] ∧
    matchMakers (Order.mkLimit "B" OrderSide.Buy "T" 200 10 8)
        [⟨0, Order.mkLimit "S1" OrderSide.Sell "T" 100 10 7⟩,
          ⟨1, Order.mkLimit "S2" OrderSide.Sell "T" 100 10 7⟩] =
      [⟨0, Order.mkLimit "S1" OrderSide.Sell "T" 100 10 7⟩,
        ⟨1, Order.mkLimit "S2" OrderSide.Sell "T" 100 10 7⟩] ∧
    sellLT ⟨0, Order.mkLimit "S1" OrderSide.Sell "T" 100 10 7⟩
      ⟨1, Order.mkLimit "S2" OrderSide.Sell "T" 100 10 7⟩ = false ∧
    sellLT ⟨1, Order.mkLimit "S2" OrderSide.Sell "T" 100 10 7⟩
      ⟨0, Order.mkLimit "S1" OrderSide.Sell "T" 100 10 7⟩ = false := by
  decide

/-- Claim C8 is what the specification mandates, but the code has no
over-fill check: `Order::fill` with a quantity exceeding `remaining`
silently commits the over-filled state.  At a size-100 order with
`fill(150)`: `filled_size` becomes 150 (greater than `size`), the status
is set to `Filled`, no error of any kind is signalled (the function is
total and returns normally), and `remaining_size` wraps around the
`uint64_t` modulus. -/
theorem C8_overfill_silently_committed :
    ((Order.mkLimit "X" OrderSide.Buy "T" 100 10 1).fill 150).filled_size
      = 150 ∧
    ((Order.mkLimit "X" OrderSide.Buy "T" 100 10 1).fill 150).status
      = OrderStatus.Filled ∧
    ((Order.mkLimit "X" OrderSide.Buy "T" 100 10 1).fill 150).size = 100 ∧
    ((Order.mkLimit "X" OrderSide.Buy "T" 100 10 1).fill 150).remaining_size
      = U64 - 50 := by
  decide

theorem matchLoop_of_filled (inc : Order) (contra : List Resting)
    (omap : List (String × ℕ)) (now : ℕ) (h : inc.is_filled = true) :
    matchLoop inc contra omap now = ⟨[], inc, contra, omap⟩ := by
  cases contra with
  | nil => rw [matchLoop]
  | cons m rest =>
    rw [matchLoop]
    simp [h]

theorem findBook_updateBook (books : List (String × OrderBook))
    (sym : String) (bk : OrderBook) (p : String × OrderBook)
    (h : findBook books sym = some p) :
    findBook (updateBook books sym bk) sym = some (p.1, bk) := by
  induction books with
  | nil => simp [findBook] at h
  | cons q rest ih =>
    by_cases hq : q.1 = sym
    · unfold findBook at h
      rw [List.find?_cons_of_pos _ (by simp [hq])] at h
      cases h
      unfold updateBook findBook
      simp only [List.map_cons, if_pos hq]
      rw [List.find?_cons_of_pos _ (by simp [hq])]
    · unfold findBook at h
      rw [List.find?_cons_of_neg _ (by simp [hq])] at h
      unfold updateBook findBook
      simp only [List.map_cons, if_neg hq]
      rw [List.find?_cons_of_neg _ (by simp [hq])]
      exact ih h

/-- Claim C9, corrected.  Placing a size-0 limit order on an existing
symbol really returns an empty trade list and never appends the order:
the zero-size order is born filled (`remaining = 0`), the matching loop
never runs, and the target book's sides and id index (and `next_tag`)
are exactly as before — but the book is not "completely unchanged",
because `match_order` overwrites `last_update_time` unconditionally
(`C9_counterexample`). -/
theorem C9_zero_size_limit (E : MatchingEngine) (sym id : String)
    (s : OrderSide) (price : ℚ) (now : ℕ) (b : OrderBook)
    (hb : findBook E.order_books sym = some (sym, b)) :
    (E.place_limit_order sym id s 0 price now).1 = [] ∧
    findBook (E.place_limit_order sym id s 0 price now).2.order_books sym
      = some (sym, { b with last_update_time := now }) := by
  have hfilled : (Order.mkLimit id s sym 0 price now).is_filled = true := by
    rfl
  have hmatch : b.match_order (Order.mkLimit id s sym 0 price now) now =
      ([], Order.mkLimit id s sym 0 price now,
        { b with last_update_time := now }) := by
    unfold OrderBook.match_order
    by_cases hside : (Order.mkLimit id s sym 0 price now).side = OrderSide.Buy
    · rw [if_pos hside, matchLoop_of_filled _ _ _ _ hfilled]
    · rw [if_neg hside, matchLoop_of_filled _ _ _ _ hfilled]
  unfold MatchingEngine.place_limit_order
  rw [hb]
  simp only [hmatch, hfilled, if_pos]
  exact ⟨trivial, findBook_updateBook E.order_books sym _ _ hb⟩

/-- The "completely unchanged" part of claim C9 is false on the code:
a size-0 limit order against an existing (empty) book still mutates the
book, because `match_order` stamps `last_update_time` with the current
clock before returning. -/
theorem C9_counterexample :
    findBook
      ((MatchingEngine.mk [("T", OrderBook.mk "T" [] [] [] 0 0)]
        []).place_limit_order "T" "Z" OrderSide.Buy 0 10 5).2.order_books
      "T" = some ("T", OrderBook.mk "T" [] [] [] 5 0) ∧
    OrderBook.mk "T" [] [] [] 5 0 ≠ OrderBook.mk "T" [] [] [] 0 0 := by
  decide

theorem C9_witness :
    findBook
      (MatchingEngine.mk [("T", OrderBook.mk "T" [] [] [] 0 0)]
        []).order_books "T" = some ("T", OrderBook.mk "T" [] [] [] 0 0) ∧
    ((MatchingEngine.mk [("T", OrderBook.mk "T" [] [] [] 0 0)]
      []).place_limit_order "T" "Z" OrderSide.Buy 0 10 5).1 = [] :=
  ⟨by decide,
    (C9_zero_size_limit
      (MatchingEngine.mk [("T", OrderBook.mk "T" [] [] [] 0 0)] [])
      "T" "Z" OrderSide.Buy 10 5 (OrderBook.mk "T" [] [] [] 0 0)
      (by decide)).1⟩


theorem matchLoop_contra_tags :
    ∀ (contra : List Resting) (inc : Order) (omap : List (String × ℕ))
      (now : ℕ) (r : Resting), r ∈ (matchLoop inc contra omap now).contra →
      ∃ r0 ∈ contra, r0.tag = r.tag
  | [], inc, omap, now => by
    intro r hr
    rw [matchLoop] at hr
    cases hr
  | maker :: rest, inc, omap, now => by
    intro r hr
    rw [matchLoop] at hr
    by_cases h1 : inc.is_filled
    · rw [if_pos h1] at hr
      exact ⟨r, hr, rfl⟩
    · rw [if_neg h1] at hr
      by_cases h2 : inc.type = OrderType.Market ∨ priceMatches inc maker
      · rw [if_pos h2] at hr
        by_cases h3 : (maker.ord.fill
            (min inc.remaining_size maker.ord.remaining_size)).is_filled
        · simp only [h3, if_true] at hr
          obtain ⟨r0, hr0, htag⟩ :=
            matchLoop_contra_tags rest
              (inc.fill (min inc.remaining_size maker.ord.remaining_size))
              (omap.erase (maker.ord.order_id, maker.tag)) now r hr
          exact ⟨r0, List.mem_cons_of_mem _ hr0, htag⟩
        · simp only [h3, Bool.false_eq_true, if_false] at hr
          rcases List.mem_cons.mp hr with hrm | hr'
          · exact ⟨maker, List.mem_cons_self _ _, by rw [hrm]⟩
          · exact ⟨r, List.mem_cons_of_mem _ hr', rfl⟩
      · rw [if_neg h2] at hr
        exact ⟨r, hr, rfl⟩

theorem matchOrder_next_tag (b : OrderBook) (inc : Order) (now : ℕ) :
    (b.match_order inc now).2.2.next_tag = b.next_tag := by
  unfold OrderBook.match_order
  split <;> rfl

theorem matchOrder_symbol (b : OrderBook) (inc : Order) (now : ℕ) :
    (b.match_order inc now).2.2.symbol = b.symbol := by
  unfold OrderBook.match_order
  split <;> rfl

theorem matchOrder_sides_tags (b : OrderBook) (inc : Order) (now : ℕ) :
    ∀ r ∈ (b.match_order inc now).2.2.buy_orders
        ++ (b.match_order inc now).2.2.sell_orders,
      ∃ r0 ∈ b.buy_orders ++ b.sell_orders, r0.tag = r.tag := by
  intro r hr
  unfold OrderBook.match_order at hr
  by_cases hs : inc.side = OrderSide.Buy
  · rw [if_pos hs] at hr
    rcases List.mem_append.mp hr with hb | hsell
    · exact ⟨r, List.mem_append.mpr (Or.inl hb), rfl⟩
    · obtain ⟨r0, hr0, htag⟩ :=
        matchLoop_contra_tags b.sell_orders inc b.order_map now r hsell
      exact ⟨r0, List.mem_append.mpr (Or.inr hr0), htag⟩
  · rw [if_neg hs] at hr
    rcases List.mem_append.mp hr with hbuy | hsell
    · obtain ⟨r0, hr0, htag⟩ :=
        matchLoop_contra_tags b.buy_orders inc b.order_map now r hbuy
      exact ⟨r0, List.mem_append.mpr (Or.inl hr0), htag⟩
    · exact ⟨r, List.mem_append.mpr (Or.inr hsell), rfl⟩

theorem matchLoop_incoming_wf :
    ∀ (contra : List Resting) (inc : Order) (omap : List (String × ℕ))
      (now : ℕ), inc.filled_size ≤ inc.size → inc.size < U64 →
      (matchLoop inc contra omap now).incoming.filled_size
          ≤ (matchLoop inc contra omap now).incoming.size ∧
        (matchLoop inc contra omap now).incoming.size = inc.size
  | [], inc, omap, now => by
    intro h1 h2
    rw [matchLoop]
    exact ⟨h1, rfl⟩
  | maker :: rest, inc, omap, now => by
    intro h1 h2
    rw [matchLoop]
    by_cases hf : inc.is_filled
    · rw [if_pos hf]
      exact ⟨h1, rfl⟩
    · rw [if_neg hf]
      by_cases h2' : inc.type = OrderType.Market ∨ priceMatches inc maker
      · rw [if_pos h2']
        have h1' := fill_filled_le inc
          (min inc.remaining_size maker.ord.remaining_size) h1 h2
          (Nat.min_le_left _ _)
        have hsz' : (inc.fill
            (min inc.remaining_size maker.ord.remaining_size)).size < U64 := by
          rw [fill_size_field]
          exact h2
        have hfs := fill_size_field inc
          (min inc.remaining_size maker.ord.remaining_size)
        by_cases h3 : (maker.ord.fill
            (min inc.remaining_size maker.ord.remaining_size)).is_filled
        · simp only [h3, if_true]
          have := matchLoop_incoming_wf rest
            (inc.fill (min inc.remaining_size maker.ord.remaining_size))
            (omap.erase (maker.ord.order_id, maker.tag)) now
            (by rw [fill_size_field] at h1' ⊢; exact h1') hsz'
          exact ⟨this.1, by rw [this.2, hfs]⟩
        · simp only [h3, Bool.false_eq_true, if_false]
          exact ⟨by rw [fill_size_field] at h1' ⊢; exact h1', hfs⟩
      · rw [if_neg h2']
        exact ⟨h1, rfl⟩

theorem is_filled_false_iff (o : Order) (h1 : o.filled_size ≤ o.size)
    (h2 : o.size < U64) : o.is_filled = false ↔ 0 < o.remaining_size := by
  rw [remaining_size_eq o h1 h2]
  unfold Order.is_filled
  simp only [decide_eq_false_iff_not, not_le]
  omega

/-- Claim C4.  (a) `OrderBook::match_order` never itself appends the
incoming order (nor any new order) to the book: it allocates no tag and
every resting order after a match carries the tag of one resting before.
(b) `place_limit_order` appends the incoming order (the unique resting
order carrying the freshly allocated tag) to the book if and only if its
remaining is positive after matching.  (c) `place_market_order` never
rests the incoming order: the book keeps only previously existing
tags. -/
theorem C4_residual_resting_policy (E : MatchingEngine) (sym id : String)
    (s : OrderSide) (size : ℕ) (price : ℚ) (now : ℕ) (b : OrderBook)
    (hb : findBook E.order_books sym = some (sym, b))
    (htags : ∀ r ∈ b.buy_orders ++ b.sell_orders, r.tag < b.next_tag)
    (hsz : size < U64) :
    (∀ (inc : Order) (now' : ℕ),
      (b.match_order inc now').2.2.next_tag = b.next_tag ∧
      ∀ r ∈ (b.match_order inc now').2.2.buy_orders
          ++ (b.match_order inc now').2.2.sell_orders,
        ∃ r0 ∈ b.buy_orders ++ b.sell_orders, r0.tag = r.tag) ∧
    (∃ bk,
      findBook (E.place_limit_order sym id s size price now).2.order_books
        sym = some (sym, bk) ∧
      ((∃ r ∈ bk.buy_orders ++ bk.sell_orders, r.tag = b.next_tag) ↔
        0 < ((b.match_order (Order.mkLimit id s sym size price now)
          now).2.1).remaining_size)) ∧
    (∃ bk,
      findBook (E.place_market_order sym id s size now).2.order_books sym
        = some (sym, bk) ∧
      bk.next_tag = b.next_tag ∧
      ∀ r ∈ bk.buy_orders ++ bk.sell_orders,
        ∃ r0 ∈ b.buy_orders ++ b.sell_orders, r0.tag = r.tag) := by
  have hwf := matchLoop_incoming_wf
  refine ⟨fun inc now' => ⟨matchOrder_next_tag b inc now',
    matchOrder_sides_tags b inc now'⟩, ?_, ?_⟩
  · set o := Order.mkLimit id s sym size price now with ho
    have ho1 : o.filled_size ≤ o.size := by
      rw [ho]
      exact Nat.zero_le _
    have ho2 : o.size < U64 := hsz
    have hinc_wf :
        (b.match_order o now).2.1.filled_size
            ≤ (b.match_order o now).2.1.size ∧
          (b.match_order o now).2.1.size = o.size := by
      unfold OrderBook.match_order
      by_cases hsd : o.side = OrderSide.Buy
      · rw [if_pos hsd]
        exact matchLoop_incoming_wf b.sell_orders o b.order_map now ho1 ho2
      · rw [if_neg hsd]
        exact matchLoop_incoming_wf b.buy_orders o b.order_map now ho1 ho2
    have hfiff : (b.match_order o now).2.1.is_filled = false ↔
        0 < (b.match_order o now).2.1.remaining_size :=
      is_filled_false_iff _ hinc_wf.1 (by rw [hinc_wf.2]; exact ho2)
    unfold MatchingEngine.place_limit_order
    rw [hb]
    by_cases hf : (b.match_order o now).2.1.is_filled
    · refine ⟨(b.match_order o now).2.2, ?_, ?_⟩
      · simp only [hf, if_true]
        exact findBook_updateBook E.order_books sym _ _ hb
      · constructor
        · intro ⟨r, hr, htag⟩
          obtain ⟨r0, hr0, htag0⟩ := matchOrder_sides_tags b o now r hr
          exact absurd (htag0.trans htag) (Nat.ne_of_lt (htags r0 hr0))
        · intro hpos
          rw [← hfiff] at hpos
          rw [hf] at hpos
          cases hpos
    · have hf' : (b.match_order o now).2.1.is_filled = false := by
        simp only [Bool.not_eq_true] at hf
        exact hf
      refine ⟨(b.match_order o now).2.2.add_order (b.match_order o now).2.1
        now, ?_, ?_⟩
      · simp only [hf', Bool.false_eq_true, if_false]
        exact findBook_updateBook E.order_books sym _ _ hb
      · have hmem : ∃ r ∈ ((b.match_order o now).2.2.add_order
            (b.match_order o now).2.1 now).buy_orders ++
            ((b.match_order o now).2.2.add_order
              (b.match_order o now).2.1 now).sell_orders,
            r.tag = b.next_tag := by
          unfold OrderBook.add_order
          by_cases hsd : (b.match_order o now).2.1.side = OrderSide.Buy
          · rw [if_pos hsd]
            refine ⟨⟨(b.match_order o now).2.2.next_tag,
              (b.match_order o now).2.1⟩, ?_, matchOrder_next_tag b o now⟩
            apply List.mem_append.mpr
            apply Or.inl
            unfold sort_buy_orders
            rw [List.mem_insertionSort]
            exact List.mem_append.mpr (Or.inr (List.mem_singleton.mpr rfl))
          · rw [if_neg hsd]
            refine ⟨⟨(b.match_order o now).2.2.next_tag,
              (b.match_order o now).2.1⟩, ?_, matchOrder_next_tag b o now⟩
            apply List.mem_append.mpr
            apply Or.inr
            unfold sort_sell_orders
            rw [List.mem_insertionSort]
            exact List.mem_append.mpr (Or.inr (List.mem_singleton.mpr rfl))
        exact ⟨fun _ => hfiff.mp hf', fun _ => hmem⟩
  · unfold MatchingEngine.place_market_order
    rw [hb]
    refine ⟨(b.match_order (Order.mkMarket id s sym size now) now).2.2,
      findBook_updateBook E.order_books sym _ _ hb,
      matchOrder_next_tag b _ now, matchOrder_sides_tags b _ now⟩

theorem C4_witness :
    findBook
      (MatchingEngine.mk
        [("T", OrderBook.mk "T" []
          [⟨0, Order.mkLimit "S" OrderSide.Sell "T" 100 10 1⟩]
          [("S", 0)] 0 1)] [("S", "T")]).order_books "T"
      = some ("T", OrderBook.mk "T" []
          [⟨0, Order.mkLimit "S" OrderSide.Sell "T" 100 10 1⟩]
          [("S", 0)] 0 1) ∧
    (∀ r ∈ (OrderBook.mk "T" []
          [⟨0, Order.mkLimit "S" OrderSide.Sell "T" 100 10 1⟩]
          [("S", 0)] 0 1).buy_orders ++ (OrderBook.mk "T" []
          [⟨0, Order.mkLimit "S" OrderSide.Sell "T" 100 10 1⟩]
          [("S", 0)] 0 1).sell_orders, r.tag < 1) ∧
    (150 < U64) ∧
    (∃ bk,
      findBook
        ((MatchingEngine.mk
          [("T", OrderBook.mk "T" []
            [⟨0, Order.mkLimit "S" OrderSide.Sell "T" 100 10 1⟩]
            [("S", 0)] 0 1)] [("S", "T")]).place_limit_order
          "T" "B" OrderSide.Buy 150 10 7).2.order_books "T"
        = some ("T", bk) ∧
      ((∃ r ∈ bk.buy_orders ++ bk.sell_orders, r.tag = 1) ↔
        0 < (((OrderBook.mk "T" []
          [⟨0, Order.mkLimit "S" OrderSide.Sell "T" 100 10 1⟩]
          [("S", 0)] 0 1).match_order
          (Order.mkLimit "B" OrderSide.Buy "T" 150 10 7)
          7).2.1).remaining_size)) :=
  ⟨by decide, by decide, by decide,
    (C4_residual_resting_policy
      (MatchingEngine.mk
        [("T", OrderBook.mk "T" []
          [⟨0, Order.mkLimit "S" OrderSide.Sell "T" 100 10 1⟩]
          [("S", 0)] 0 1)] [("S", "T")])
      "T" "B" OrderSide.Buy 150 10 7
      (OrderBook.mk "T" []
        [⟨0, Order.mkLimit "S" OrderSide.Sell "T" 100 10 1⟩]
        [("S", 0)] 0 1)
      (by decide) (by decide) (by decide)).2.1⟩

theorem cancelOrder_not_found (b : OrderBook) (id : String) (now : ℕ)
    (h : b.order_map.find? (fun e => e.1 = id) = none) :
    b.cancel_order id now = (false, b) := by
  unfold OrderBook.cancel_order
  rw [h]

theorem updateBook_of_not_mem (books : List (String × OrderBook))
    (sym : String) (bk : OrderBook) (h : ∀ q ∈ books, q.1 ≠ sym) :
    updateBook books sym bk = books := by
  induction books with
  | nil => rfl
  | cons q rest ih =>
    unfold updateBook
    rw [List.map_cons, if_neg (h q (List.mem_cons_self _ _))]
    have := ih (fun q' hq' => h q' (List.mem_cons_of_mem _ hq'))
    unfold updateBook at this
    rw [this]

theorem updateBook_self (books : List (String × OrderBook)) (sym : String)
    (p : String × OrderBook) (hnd : (books.map Prod.fst).Nodup)
    (h : findBook books sym = some p) :
    updateBook books sym p.2 = books := by
  induction books with
  | nil => rfl
  | cons q rest ih =>
    rw [List.map_cons, List.nodup_cons] at hnd
    by_cases hq : q.1 = sym
    · unfold findBook at h
      rw [List.find?_cons_of_pos _ (by simp [hq])] at h
      cases h
      have hrest : ∀ q' ∈ rest, q'.1 ≠ sym := by
        intro q' hq' hc
        exact hnd.1 (hq ▸ hc ▸ List.mem_map_of_mem Prod.fst hq')
      show (if p.1 = sym then (p.1, p.2) else p) :: updateBook rest sym p.2
          = p :: rest
      rw [if_pos hq, updateBook_of_not_mem rest sym _ hrest]
    · unfold findBook at h
      rw [List.find?_cons_of_neg _ (by simp [hq])] at h
      show (if q.1 = sym then (q.1, p.2) else q) :: updateBook rest sym p.2
          = q :: rest
      rw [if_neg hq, ih hnd.2 h]

/-- Claim C10.  When the engine's id-to-symbol multimap holds an entry
for `id` (first entry `e`), the book for `e.2` exists, but that book's
own id multimap has no entry for `id` (for example after the order fully
filled, leaving the engine entry stale), `MatchingEngine::cancel_order`
returns `false` and leaves the entire engine state — the id-to-symbol
index and every book — unchanged; consequently an immediately repeated
cancel with the same id returns `false` again. -/
theorem C10_cancel_stale_entry (E : MatchingEngine) (id : String)
    (now now' : ℕ) (e : String × String) (p : String × OrderBook)
    (he : E.order_id_to_symbol.find? (fun x => x.1 = id) = some e)
    (hp : findBook E.order_books e.2 = some p)
    (hnone : p.2.order_map.find? (fun x => x.1 = id) = none)
    (hnd : (E.order_books.map Prod.fst).Nodup) :
    E.cancel_order id now = (false, E) ∧
    ((E.cancel_order id now).2.cancel_order id now').1 = false := by
  have hmain : ∀ t : ℕ, E.cancel_order id t = (false, E) := by
    intro t
    unfold MatchingEngine.cancel_order
    rw [he]
    dsimp only
    rw [hp]
    dsimp only
    have hc : p.2.cancel_order id t = (false, p.2) :=
      cancelOrder_not_found p.2 id t hnone
    simp only [hc, Bool.false_eq_true, if_false]
    rw [updateBook_self E.order_books e.2 p hnd hp]
  refine ⟨hmain now, ?_⟩
  rw [hmain now, hmain now']

theorem C10_witness :
    (MatchingEngine.mk [("T", OrderBook.mk "T" [] [] [] 2 1)]
      [("B1", "T")]).order_id_to_symbol.find? (fun x => x.1 = "B1")
      = some ("B1", "T") ∧
    findBook (MatchingEngine.mk [("T", OrderBook.mk "T" [] [] [] 2 1)]
      [("B1", "T")]).order_books "T"
      = some ("T", OrderBook.mk "T" [] [] [] 2 1) ∧
    (MatchingEngine.mk [("T", OrderBook.mk "T" [] [] [] 2 1)]
      [("B1", "T")]).cancel_order "B1" 9
      = (false, MatchingEngine.mk [("T", OrderBook.mk "T" [] [] [] 2 1)]
          [("B1", "T")]) :=
  ⟨by decide, by decide,
    (C10_cancel_stale_entry
      (MatchingEngine.mk [("T", OrderBook.mk "T" [] [] [] 2 1)]
        [("B1", "T")]) "B1" 9 10 ("B1", "T")
      ("T", OrderBook.mk "T" [] [] [] 2 1)
      (by decide) (by decide) (by decide) (by decide)).1⟩

/-- Claim C6 is what the specification mandates (design note 3), but the
code keeps the stale entry: `place_limit_order` registers `id ↦ symbol`
before matching and never removes it when the order fully fills.
Concretely: seed book "T" with resting sell S1 (100 at 10), then place
limit buy B1 (100 at 10).  B1 fully fills (one trade, remaining 0) and
never rests, yet the engine's id-to-symbol multimap still contains the
entry ("B1", "T") registered by that call (and the stale ("S1", "T")
entry as well); the book itself is empty. -/
theorem C6_stale_engine_entry_retained :
    ((((MatchingEngine.empty.add_order_book "T").place_limit_order
      "T" "S1" OrderSide.Sell 100 10 1).2.place_limit_order
      "T" "B1" OrderSide.Buy 100 10 2).1 = [⟨"B1", "S1", 100, 10, 2⟩]) ∧
    ((((MatchingEngine.empty.add_order_book "T").place_limit_order
      "T" "S1" OrderSide.Sell 100 10 1).2.place_limit_order
      "T" "B1" OrderSide.Buy 100 10 2).2.order_id_to_symbol
      = [("S1", "T"), ("B1", "T")]) ∧
    (findBook (((MatchingEngine.empty.add_order_book "T").place_limit_order
      "T" "S1" OrderSide.Sell 100 10 1).2.place_limit_order
      "T" "B1" OrderSide.Buy 100 10 2).2.order_books "T"
      = some ("T", OrderBook.mk "T" [] [] [] 2 1)) := by
  decide

theorem find?_eq_filter_head {α} (p : α → Bool) :
    ∀ l : List α, l.find? p = (l.filter p).head?
  | [] => rfl
  | a :: t => by
    by_cases hpa : p a = true
    · rw [List.find?_cons_of_pos _ hpa, List.filter_cons_of_pos hpa]
      rfl
    · rw [List.find?_cons_of_neg _ (by simpa using hpa),
        List.filter_cons_of_neg (by simpa using hpa)]
      exact find?_eq_filter_head p t

theorem filter_erase_of_find? {α} [BEq α] [LawfulBEq α] (p : α → Bool) :
    ∀ (l : List α) (e : α), l.find? p = some e →
      (l.erase e).filter p = (l.filter p).tail
  | [], e => by
    intro h
    cases h
  | a :: t, e => by
    intro h
    by_cases hpa : p a = true
    · rw [List.find?_cons_of_pos _ hpa] at h
      cases h
      rw [List.erase_cons_head, List.filter_cons_of_pos hpa]
      rfl
    · rw [List.find?_cons_of_neg _ (by simpa using hpa)] at h
      have hne : a ≠ e := by
        intro hc
        rw [hc] at hpa
        exact hpa (List.find?_some h)
      rw [List.erase_cons_tail (by simpa using hne),
        List.filter_cons_of_neg (by simpa using hpa),
        List.filter_cons_of_neg (by simpa using hpa)]
      exact filter_erase_of_find? p t e h

theorem eraseTag_sublist : ∀ (l : List Resting) (t : ℕ),
    (eraseTag l t).Sublist l
  | [], _ => List.Sublist.refl _
  | r :: rs, t => by
    unfold eraseTag
    by_cases h : r.tag = t
    · rw [if_pos h]
      exact List.sublist_cons_self _ _
    · rw [if_neg h]
      exact List.Sublist.cons₂ _ (eraseTag_sublist rs t)

theorem mem_eraseTag_of_ne : ∀ (l : List Resting) (t : ℕ) (r0 : Resting),
    r0 ∈ l → r0.tag ≠ t → r0 ∈ eraseTag l t
  | [], _, _ => by
    intro h _
    cases h
  | r :: rs, t, r0 => by
    intro hmem hne
    unfold eraseTag
    by_cases h : r.tag = t
    · rw [if_pos h]
      rcases List.mem_cons.mp hmem with hr | hr
      · exact absurd (hr ▸ h) hne
      · exact hr
    · rw [if_neg h]
      rcases List.mem_cons.mp hmem with hr | hr
      · exact hr ▸ List.mem_cons_self _ _
      · exact List.mem_cons_of_mem _ (mem_eraseTag_of_ne rs t r0 hr hne)

theorem mem_eraseTag_iff : ∀ (l : List Resting) (t : ℕ),
    (l.map Resting.tag).Nodup → ∀ r0 : Resting,
    (r0 ∈ eraseTag l t ↔ r0 ∈ l ∧ r0.tag ≠ t)
  | [], t => by
    intro _ r0
    constructor
    · intro h
      cases h
    · intro ⟨h, _⟩
      cases h
  | r :: rs, t => by
    intro hnd r0
    rw [List.map_cons, List.nodup_cons] at hnd
    unfold eraseTag
    by_cases h : r.tag = t
    · rw [if_pos h]
      constructor
      · intro hmem
        refine ⟨List.mem_cons_of_mem _ hmem, ?_⟩
        intro hc
        exact hnd.1 (h ▸ hc ▸ List.mem_map_of_mem Resting.tag hmem)
      · intro ⟨hmem, hne⟩
        rcases List.mem_cons.mp hmem with hr | hr
        · exact absurd (hr ▸ h) hne
        · exact hr
    · rw [if_neg h]
      constructor
      · intro hmem
        rcases List.mem_cons.mp hmem with hr | hr
        · exact ⟨hr ▸ List.mem_cons_self _ _, hr ▸ h⟩
        · have := (mem_eraseTag_iff rs t hnd.2 r0).mp hr
          exact ⟨List.mem_cons_of_mem _ this.1, this.2⟩
      · intro ⟨hmem, hne⟩
        rcases List.mem_cons.mp hmem with hr | hr
        · exact hr ▸ List.mem_cons_self _ _
        · exact List.mem_cons_of_mem _
            ((mem_eraseTag_iff rs t hnd.2 r0).mpr ⟨hr, hne⟩)

theorem cancelOrder_found (b : OrderBook) (id : String) (now : ℕ)
    (e : String × ℕ) (r : Resting)
    (he : b.order_map.find? (fun x => x.1 = id) = some e)
    (hr : (b.buy_orders ++ b.sell_orders).find? (fun x => x.tag = e.2)
      = some r) :
    (r.ord.side = OrderSide.Buy →
      b.cancel_order id now =
        (true, { b with
          buy_orders := eraseTag b.buy_orders e.2
          order_map := b.order_map.erase e
          last_update_time := now })) ∧
    (r.ord.side ≠ OrderSide.Buy →
      b.cancel_order id now =
        (true, { b with
          sell_orders := eraseTag b.sell_orders e.2
          order_map := b.order_map.erase e
          last_update_time := now })) := by
  unfold OrderBook.cancel_order
  rw [he]
  dsimp only
  rw [hr]
  dsimp only
  constructor
  · intro hs
    rw [if_pos hs]
  · intro hs
    rw [if_neg hs]

/-- Claim C5.  `OrderBook::cancel_order` with resting orders sharing the
id removes exactly the FIFO-first (earliest-inserted) id-multimap entry
— the head of the insertion-ordered entry list for that id — and the one
resting order carrying that entry's identity, returns `true`, and leaves
every other resting order (in particular the other same-id entries) in
place; the surviving entry list for the id is the tail of the previous
one, so a repeated cancel removes the next entry in insertion order, and
once no entry for the id remains the call returns `false` without any
mutation. -/
theorem C5_cancel_fifo_first (b : OrderBook) (id : String) (now : ℕ)
    (hms : ∀ m ∈ b.order_map,
      ∃ r ∈ b.buy_orders ++ b.sell_orders, r.tag = m.2)
    (hnd : ((b.buy_orders ++ b.sell_orders).map Resting.tag).Nodup)
    (hbs : ∀ r ∈ b.buy_orders, r.ord.side = OrderSide.Buy)
    (hss : ∀ r ∈ b.sell_orders, r.ord.side = OrderSide.Sell) :
    (b.order_map.find? (fun x => x.1 = id) = none →
      b.cancel_order id now = (false, b)) ∧
    (∀ e, b.order_map.find? (fun x => x.1 = id) = some e →
      (b.order_map.filter (fun x => x.1 = id)).head? = some e ∧
      (b.cancel_order id now).1 = true ∧
      (b.cancel_order id now).2.order_map = b.order_map.erase e ∧
      (b.cancel_order id now).2.order_map.filter (fun x => x.1 = id)
        = (b.order_map.filter (fun x => x.1 = id)).tail ∧
      (∀ r0 ∈ b.buy_orders ++ b.sell_orders, r0.tag ≠ e.2 →
        r0 ∈ (b.cancel_order id now).2.buy_orders
          ++ (b.cancel_order id now).2.sell_orders) ∧
      (∀ r0 ∈ (b.cancel_order id now).2.buy_orders
          ++ (b.cancel_order id now).2.sell_orders,
        r0 ∈ b.buy_orders ++ b.sell_orders ∧ r0.tag ≠ e.2)) := by
  constructor
  · intro hnone
    exact cancelOrder_not_found b id now hnone
  · intro e he
    have hmem_e : e ∈ b.order_map := List.mem_of_find?_eq_some he
    obtain ⟨rw0, hrw0, htagw0⟩ := hms e hmem_e
    have hfind : ((b.buy_orders ++ b.sell_orders).find?
        (fun x => x.tag = e.2)).isSome := by
      rw [List.find?_isSome]
      exact ⟨rw0, hrw0, by simpa using htagw0⟩
    obtain ⟨r, hr⟩ := Option.isSome_iff_exists.mp hfind
    have hrmem : r ∈ b.buy_orders ++ b.sell_orders :=
      List.mem_of_find?_eq_some hr
    have hrtag : r.tag = e.2 := by
      have := List.find?_some hr
      simpa using this
    have hnd_buys : (b.buy_orders.map Resting.tag).Nodup := by
      rw [List.map_append, List.nodup_append] at hnd
      exact hnd.1
    have hnd_sells : (b.sell_orders.map Resting.tag).Nodup := by
      rw [List.map_append, List.nodup_append] at hnd
      exact hnd.2.1
    have hdisj : ∀ a ∈ b.buy_orders, ∀ c ∈ b.sell_orders,
        a.tag ≠ c.tag := by
      rw [List.map_append, List.nodup_append] at hnd
      intro a ha c hc hac
      exact hnd.2.2 (List.mem_map_of_mem Resting.tag ha)
        (hac ▸ List.mem_map_of_mem Resting.tag hc)
    have hspec := cancelOrder_found b id now e r he hr
    have hhead : (b.order_map.filter (fun x => x.1 = id)).head? = some e := by
      rw [← find?_eq_filter_head]
      exact he
    rcases List.mem_append.mp hrmem with hrb | hrs
    · have hside : r.ord.side = OrderSide.Buy := hbs r hrb
      have heq := hspec.1 hside
      rw [heq]
      dsimp only
      refine ⟨hhead, rfl, rfl, ?_, ?_, ?_⟩
      · exact filter_erase_of_find? (fun x => x.1 = id) b.order_map e he
      · intro r0 hr0 hr0t
        rcases List.mem_append.mp hr0 with h0 | h0
        · exact List.mem_append.mpr
            (Or.inl (mem_eraseTag_of_ne b.buy_orders e.2 r0 h0 hr0t))
        · exact List.mem_append.mpr (Or.inr h0)
      · intro r0 hr0
        rcases List.mem_append.mp hr0 with h0 | h0
        · have := (mem_eraseTag_iff b.buy_orders e.2 hnd_buys r0).mp h0
          exact ⟨List.mem_append.mpr (Or.inl this.1), this.2⟩
        · refine ⟨List.mem_append.mpr (Or.inr h0), ?_⟩
          intro hc
          exact hdisj r hrb r0 h0 (hrtag.trans hc.symm)
    · have hside : r.ord.side ≠ OrderSide.Buy := by
        rw [hss r hrs]
        intro hc
        cases hc
      have heq := hspec.2 hside
      rw [heq]
      dsimp only
      refine ⟨hhead, rfl, rfl, ?_, ?_, ?_⟩
      · exact filter_erase_of_find? (fun x => x.1 = id) b.order_map e he
      · intro r0 hr0 hr0t
        rcases List.mem_append.mp hr0 with h0 | h0
        · exact List.mem_append.mpr (Or.inl h0)
        · exact List.mem_append.mpr
            (Or.inr (mem_eraseTag_of_ne b.sell_orders e.2 r0 h0 hr0t))
      · intro r0 hr0
        rcases List.mem_append.mp hr0 with h0 | h0
        · refine ⟨List.mem_append.mpr (Or.inl h0), ?_⟩
          intro hc
          exact hdisj r0 h0 r hrs (hc.trans hrtag.symm)
        · have := (mem_eraseTag_iff b.sell_orders e.2 hnd_sells r0).mp h0
          exact ⟨List.mem_append.mpr (Or.inr this.1), this.2⟩

theorem C5_witness :
    (∀ m ∈ (OrderBook.mk "T"
        [⟨1, Order.mkLimit "U" OrderSide.Buy "T" 200 11 2⟩,
          ⟨0, Order.mkLimit "U" OrderSide.Buy "T" 100 10 1⟩]
        [] [("U", 0), ("U", 1)] 0 2).order_map,
      ∃ r ∈ (OrderBook.mk "T"
        [⟨1, Order.mkLimit "U" OrderSide.Buy "T" 200 11 2⟩,
          ⟨0, Order.mkLimit "U" OrderSide.Buy "T" 100 10 1⟩]
        [] [("U", 0), ("U", 1)] 0 2).buy_orders ++ (OrderBook.mk "T"
        [⟨1, Order.mkLimit "U" OrderSide.Buy "T" 200 11 2⟩,
          ⟨0, Order.mkLimit "U" OrderSide.Buy "T" 100 10 1⟩]
        [] [("U", 0), ("U", 1)] 0 2).sell_orders, r.tag = m.2) ∧
    ((OrderBook.mk "T"
        [⟨1, Order.mkLimit "U" OrderSide.Buy "T" 200 11 2⟩,
          ⟨0, Order.mkLimit "U" OrderSide.Buy "T" 100 10 1⟩]
        [] [("U", 0), ("U", 1)] 0 2).cancel_order "U" 5).1 = true ∧
    ((OrderBook.mk "T"
        [⟨1, Order.mkLimit "U" OrderSide.Buy "T" 200 11 2⟩,
          ⟨0, Order.mkLimit "U" OrderSide.Buy "T" 100 10 1⟩]
        [] [("U", 0), ("U", 1)] 0 2).cancel_order "U" 5).2.order_map
      = [("U", 1)] :=
  ⟨by decide,
    ((C5_cancel_fifo_first (OrderBook.mk "T"
        [⟨1, Order.mkLimit "U" OrderSide.Buy "T" 200 11 2⟩,
          ⟨0, Order.mkLimit "U" OrderSide.Buy "T" 100 10 1⟩]
        [] [("U", 0), ("U", 1)] 0 2) "U" 5 (by decide) (by decide)
        (by decide) (by decide)).2 ("U", 0) (by decide)).2.1,
    by decide⟩

theorem orderedInsert_cons_of_forall {α} (r : α → α → Prop) [DecidableRel r]
    (a : α) : ∀ t : List α, (∀ h ∈ t, r a h) →
      List.orderedInsert r a t = a :: t
  | [] => fun _ => rfl
  | h :: hs => fun hf =>
      List.orderedInsert_of_le r hs (hf h (List.mem_cons_self _ _))

/-- Inserting a single appended element into a sorted vector and
re-sorting (`push_back` + `std::sort` in the source, insertion sort in
the model) splits the old vector around the new element and moves
nothing else. -/
theorem insertionSort_append_singleton {α} (r : α → α → Prop)
    [DecidableRel r] [IsTrans α r] (x : α) :
    ∀ l : List α, l.Pairwise r →
      List.insertionSort r (l ++ [x]) =
        l.takeWhile (fun a => decide (r a x)) ++
          x :: l.dropWhile (fun a => decide (r a x))
  | [] => by
    intro _
    rfl
  | a :: t => by
    intro hp
    rw [List.pairwise_cons] at hp
    have IH := insertionSort_append_singleton r x t hp.2
    show List.orderedInsert r a (List.insertionSort r (t ++ [x])) = _
    rw [IH]
    by_cases hax : r a x
    · rw [List.takeWhile_cons_of_pos (by simpa using hax),
        List.dropWhile_cons_of_pos (by simpa using hax)]
      cases htw : t.takeWhile (fun a => decide (r a x)) with
      | nil =>
        rw [List.nil_append, List.orderedInsert_of_le r _ hax]
        rfl
      | cons h hs =>
        have hmem : h ∈ t := by
          have : h ∈ t.takeWhile (fun a => decide (r a x)) := by
            rw [htw]
            exact List.mem_cons_self _ _
          exact (List.takeWhile_sublist _).mem this
        simp only [List.cons_append]
        rw [List.orderedInsert_of_le r _ (hp.1 h hmem)]
    · rw [List.takeWhile_cons_of_neg (by simpa using hax),
        List.dropWhile_cons_of_neg (by simpa using hax)]
      have htw : t.takeWhile (fun a => decide (r a x)) = [] := by
        cases htw : t.takeWhile (fun a => decide (r a x)) with
        | nil => rfl
        | cons h hs =>
          have hmemtw : h ∈ t.takeWhile (fun a => decide (r a x)) := by
            rw [htw]
            exact List.mem_cons_self _ _
          have hmem : h ∈ t := (List.takeWhile_sublist _).mem hmemtw
          have hrx : r h x := by simpa using List.mem_takeWhile_imp hmemtw
          exact absurd (Trans.trans (hp.1 h hmem) hrx) hax
      have hdw : t.dropWhile (fun a => decide (r a x)) = t := by
        have := List.takeWhile_append_dropWhile
          (fun a => decide (r a x)) (l := t)
        rw [htw, List.nil_append] at this
        exact this
      rw [htw, hdw, List.nil_append]
      show List.orderedInsert r a (x :: t) = x :: a :: t
      rw [List.orderedInsert, if_neg hax,
        orderedInsert_cons_of_forall r a t hp.1]

theorem find?_eq_some_of_unique {α} (p : α → Bool) :
    ∀ (l : List α) (a : α), a ∈ l → p a = true →
      (∀ b ∈ l, p b = true → b = a) → l.find? p = some a
  | [], a => by
    intro h
    cases h
  | h :: t, a => by
    intro hmem hpa huniq
    by_cases hph : p h = true
    · rw [List.find?_cons_of_pos _ hph]
      rw [huniq h (List.mem_cons_self _ _) hph]
    · rw [List.find?_cons_of_neg _ (by simpa using hph)]
      have hne : a ≠ h := by
        intro hc
        rw [hc] at hpa
        exact hph hpa
      rcases List.mem_cons.mp hmem with hc | hmem'
      · exact absurd hc hne
      · exact find?_eq_some_of_unique p t a hmem' hpa
          (fun b hb hpb => huniq b (List.mem_cons_of_mem _ hb) hpb)

theorem eraseTag_append_of_ne :
    ∀ (l₁ : List Resting) (rx : Resting) (l₂ : List Resting) (t : ℕ),
      (∀ r ∈ l₁, r.tag ≠ t) → rx.tag = t →
      eraseTag (l₁ ++ rx :: l₂) t = l₁ ++ l₂
  | [], rx, l₂, t => by
    intro _ hx
    rw [List.nil_append]
    unfold eraseTag
    rw [if_pos hx, List.nil_append]
  | r :: rs, rx, l₂, t => by
    intro h1 hx
    rw [List.cons_append]
    unfold eraseTag
    rw [if_neg (h1 r (List.mem_cons_self _ _)),
      eraseTag_append_of_ne rs rx l₂ t
        (fun r' hr' => h1 r' (List.mem_cons_of_mem _ hr')) hx,
      List.cons_append]

/-- Claim C7, corrected.  When no resting order shares the id of the
fresh order `x`, `add(x); cancel(x.id)` restores both sides and the id
multimap exactly (only `last_update_time`, and the model's allocation
counter, differ) and the cancel reports success.  When another resting
order already carries the same id, the claim fails: cancel removes the
FIFO-first entry, which is the OLD order, not `x`
(`C7_counterexample`). -/
theorem C7_add_cancel_round_trip (b : OrderBook) (x : Order)
    (now now' : ℕ)
    (hbsort : b.buy_orders.Pairwise buyLE)
    (hssort : b.sell_orders.Pairwise sellLE)
    (htags : ∀ r ∈ b.buy_orders ++ b.sell_orders, r.tag < b.next_tag)
    (hid : ∀ m ∈ b.order_map, m.1 ≠ x.order_id) :
    ((b.add_order x now).cancel_order x.order_id now').1 = true ∧
    ((b.add_order x now).cancel_order x.order_id now').2.buy_orders
      = b.buy_orders ∧
    ((b.add_order x now).cancel_order x.order_id now').2.sell_orders
      = b.sell_orders ∧
    ((b.add_order x now).cancel_order x.order_id now').2.order_map
      = b.order_map := by
  have hnone : b.order_map.find? (fun e => e.1 = x.order_id) = none :=
    List.find?_eq_none.mpr (fun m hm => by simpa using hid m hm)
  have hfind_map : ∀ nt : ℕ,
      (b.order_map ++ [(x.order_id, nt)]).find?
        (fun e => e.1 = x.order_id) = some (x.order_id, nt) := by
    intro nt
    rw [List.find?_append, hnone, Option.none_or]
    rw [List.find?_cons_of_pos _ (by simp)]
  have hmap_erase :
      (b.order_map ++ [(x.order_id, b.next_tag)]).erase
        (x.order_id, b.next_tag) = b.order_map := by
    rw [List.erase_append_right _ (fun hc => hid _ hc rfl),
      List.erase_cons_head, List.append_nil]
  have hbt : ∀ r ∈ b.buy_orders, r.tag ≠ b.next_tag := fun r hr =>
    Nat.ne_of_lt (htags r (List.mem_append.mpr (Or.inl hr)))
  have hst : ∀ r ∈ b.sell_orders, r.tag ≠ b.next_tag := fun r hr =>
    Nat.ne_of_lt (htags r (List.mem_append.mpr (Or.inr hr)))
  by_cases hside : x.side = OrderSide.Buy
  · have hadd : b.add_order x now =
        { b with
          buy_orders := sort_buy_orders
            (b.buy_orders ++ [⟨b.next_tag, x⟩])
          order_map := b.order_map ++ [(x.order_id, b.next_tag)]
          last_update_time := now
          next_tag := b.next_tag + 1 } := by
      unfold OrderBook.add_order
      rw [if_pos hside]
    have hsplit : sort_buy_orders (b.buy_orders ++ [⟨b.next_tag, x⟩]) =
        b.buy_orders.takeWhile
          (fun a => decide (buyLE a ⟨b.next_tag, x⟩)) ++
          (⟨b.next_tag, x⟩ : Resting) ::
            b.buy_orders.dropWhile
              (fun a => decide (buyLE a ⟨b.next_tag, x⟩)) :=
      insertionSort_append_singleton buyLE ⟨b.next_tag, x⟩ b.buy_orders
        hbsort
    have hmem_new : (⟨b.next_tag, x⟩ : Resting) ∈
        sort_buy_orders (b.buy_orders ++ [⟨b.next_tag, x⟩]) := by
      unfold sort_buy_orders
      rw [List.mem_insertionSort]
      exact List.mem_append.mpr (Or.inr (List.mem_singleton.mpr rfl))
    have hmem_sort : ∀ r ∈ sort_buy_orders
        (b.buy_orders ++ [⟨b.next_tag, x⟩]),
        r ∈ b.buy_orders ++ [(⟨b.next_tag, x⟩ : Resting)] := by
      intro r hr
      unfold sort_buy_orders at hr
      rw [List.mem_insertionSort] at hr
      exact hr
    have hfind_r : (sort_buy_orders (b.buy_orders ++ [⟨b.next_tag, x⟩]) ++
        b.sell_orders).find? (fun r => r.tag = b.next_tag)
        = some ⟨b.next_tag, x⟩ := by
      apply find?_eq_some_of_unique
      · exact List.mem_append.mpr (Or.inl hmem_new)
      · simp
      · intro r0 hr0 hp0
        have htag0 : r0.tag = b.next_tag := by simpa using hp0
        rcases List.mem_append.mp hr0 with h0 | h0
        · rcases List.mem_append.mp (hmem_sort r0 h0) with h1 | h1
          · exact absurd htag0 (hbt r0 h1)
          · exact List.mem_singleton.mp h1
        · exact absurd htag0 (hst r0 h0)
    rw [hadd]
    unfold OrderBook.cancel_order
    rw [hfind_map b.next_tag]
    dsimp only
    rw [hfind_r]
    dsimp only
    rw [if_pos hside]
    refine ⟨rfl, ?_, rfl, ?_⟩
    · show eraseTag
        (sort_buy_orders (b.buy_orders ++ [⟨b.next_tag, x⟩]))
        b.next_tag = b.buy_orders
      rw [hsplit, eraseTag_append_of_ne _ ⟨b.next_tag, x⟩ _ b.next_tag
        (fun r hr => hbt r ((List.takeWhile_sublist _).mem hr)) rfl,
        List.takeWhile_append_dropWhile]
    · exact hmap_erase
  · have hadd : b.add_order x now =
        { b with
          sell_orders := sort_sell_orders
            (b.sell_orders ++ [⟨b.next_tag, x⟩])
          order_map := b.order_map ++ [(x.order_id, b.next_tag)]
          last_update_time := now
          next_tag := b.next_tag + 1 } := by
      unfold OrderBook.add_order
      rw [if_neg hside]
    have hsplit : sort_sell_orders (b.sell_orders ++ [⟨b.next_tag, x⟩]) =
        b.sell_orders.takeWhile
          (fun a => decide (sellLE a ⟨b.next_tag, x⟩)) ++
          (⟨b.next_tag, x⟩ : Resting) ::
            b.sell_orders.dropWhile
              (fun a => decide (sellLE a ⟨b.next_tag, x⟩)) :=
      insertionSort_append_singleton sellLE ⟨b.next_tag, x⟩ b.sell_orders
        hssort
    have hmem_new : (⟨b.next_tag, x⟩ : Resting) ∈
        sort_sell_orders (b.sell_orders ++ [⟨b.next_tag, x⟩]) := by
      unfold sort_sell_orders
      rw [List.mem_insertionSort]
      exact List.mem_append.mpr (Or.inr (List.mem_singleton.mpr rfl))
    have hmem_sort : ∀ r ∈ sort_sell_orders
        (b.sell_orders ++ [⟨b.next_tag, x⟩]),
        r ∈ b.sell_orders ++ [(⟨b.next_tag, x⟩ : Resting)] := by
      intro r hr
      unfold sort_sell_orders at hr
      rw [List.mem_insertionSort] at hr
      exact hr
    have hfind_r : (b.buy_orders ++
        sort_sell_orders (b.sell_orders ++ [⟨b.next_tag, x⟩])).find?
        (fun r => r.tag = b.next_tag) = some ⟨b.next_tag, x⟩ := by
      apply find?_eq_some_of_unique
      · exact List.mem_append.mpr (Or.inr hmem_new)
      · simp
      · intro r0 hr0 hp0
        have htag0 : r0.tag = b.next_tag := by simpa using hp0
        rcases List.mem_append.mp hr0 with h0 | h0
        · exact absurd htag0 (hbt r0 h0)
        · rcases List.mem_append.mp (hmem_sort r0 h0) with h1 | h1
          · exact absurd htag0 (hst r0 h1)
          · exact List.mem_singleton.mp h1
    rw [hadd]
    unfold OrderBook.cancel_order
    rw [hfind_map b.next_tag]
    dsimp only
    rw [hfind_r]
    dsimp only
    rw [if_neg hside]
    refine ⟨rfl, rfl, ?_, ?_⟩
    · show eraseTag
        (sort_sell_orders (b.sell_orders ++ [⟨b.next_tag, x⟩]))
        b.next_tag = b.sell_orders
      rw [hsplit, eraseTag_append_of_ne _ ⟨b.next_tag, x⟩ _ b.next_tag
        (fun r hr => hst r ((List.takeWhile_sublist _).mem hr)) rfl,
        List.takeWhile_append_dropWhile]
    · exact hmap_erase

/-- Claim C7's duplicate-id case fails on the code: with resting buy
(id "U", tag 0) already in the book, `add` of a second "U" order and
`cancel("U")` removes the OLD tag-0 order (FIFO-first multimap entry),
leaving the new order resting — the book does not return to its prior
state. -/
theorem C7_counterexample :
    (((OrderBook.mk "T" [⟨0, Order.mkLimit "U" OrderSide.Buy "T" 100 10 1⟩]
        [] [("U", 0)] 0 1).add_order
        (Order.mkLimit "U" OrderSide.Buy "T" 200 11 2) 3).cancel_order
        "U" 4).2.buy_orders
      = [⟨1, Order.mkLimit "U" OrderSide.Buy "T" 200 11 2⟩] ∧
    (((OrderBook.mk "T" [⟨0, Order.mkLimit "U" OrderSide.Buy "T" 100 10 1⟩]
        [] [("U", 0)] 0 1).add_order
        (Order.mkLimit "U" OrderSide.Buy "T" 200 11 2) 3).cancel_order
        "U" 4).2.buy_orders
      ≠ (OrderBook.mk "T" [⟨0, Order.mkLimit "U" OrderSide.Buy "T" 100 10 1⟩]
        [] [("U", 0)] 0 1).buy_orders ∧
    (((OrderBook.mk "T" [⟨0, Order.mkLimit "U" OrderSide.Buy "T" 100 10 1⟩]
        [] [("U", 0)] 0 1).add_order
        (Order.mkLimit "U" OrderSide.Buy "T" 200 11 2) 3).cancel_order
        "U" 4).2.order_map
      ≠ (OrderBook.mk "T" [⟨0, Order.mkLimit "U" OrderSide.Buy "T" 100 10 1⟩]
        [] [("U", 0)] 0 1).order_map := by
  decide

theorem C7_witness :
    (OrderBook.mk "T" [⟨0, Order.mkLimit "V" OrderSide.Buy "T" 100 10 1⟩]
      [] [("V", 0)] 0 1).buy_orders.Pairwise buyLE ∧
    (((OrderBook.mk "T" [⟨0, Order.mkLimit "V" OrderSide.Buy "T" 100 10 1⟩]
        [] [("V", 0)] 0 1).add_order
        (Order.mkLimit "U" OrderSide.Buy "T" 200 11 2) 3).cancel_order
        "U" 4).2.buy_orders
      = (OrderBook.mk "T" [⟨0, Order.mkLimit "V" OrderSide.Buy "T" 100 10 1⟩]
        [] [("V", 0)] 0 1).buy_orders :=
  ⟨by decide,
    (C7_add_cancel_round_trip
      (OrderBook.mk "T" [⟨0, Order.mkLimit "V" OrderSide.Buy "T" 100 10 1⟩]
        [] [("V", 0)] 0 1)
      (Order.mkLimit "U" OrderSide.Buy "T" 200 11 2) 3 4
      (by decide) (by decide) (by decide) (by decide)).2.1⟩

/-- The structural invariant of an `OrderBook` maintained by
`add_order`, `cancel_order` and `match_order`: well-formed resting
quantities, the two-way correspondence between the side vectors and the
id multimap (the second `shared_ptr` reference), uniqueness and
freshness of allocation tags, and side-field consistency. -/
structure BookInv (b : OrderBook) : Prop where
  wf : ∀ r ∈ b.buy_orders ++ b.sell_orders,
    r.ord.filled_size < r.ord.size ∧ r.ord.size < U64
  side_map : ∀ r ∈ b.buy_orders ++ b.sell_orders,
    (r.ord.order_id, r.tag) ∈ b.order_map
  map_side : ∀ m ∈ b.order_map, ∃ r ∈ b.buy_orders ++ b.sell_orders,
    r.tag = m.2 ∧ r.ord.order_id = m.1
  tags_nodup : ((b.buy_orders ++ b.sell_orders).map Resting.tag).Nodup
  tags_lt : ∀ r ∈ b.buy_orders ++ b.sell_orders, r.tag < b.next_tag
  map_lt : ∀ m ∈ b.order_map, m.2 < b.next_tag
  map_snd_nodup : (b.order_map.map Prod.snd).Nodup
  buys_side : ∀ r ∈ b.buy_orders, r.ord.side = OrderSide.Buy
  sells_side : ∀ r ∈ b.sell_orders, r.ord.side = OrderSide.Sell

theorem bookInv_empty (sym : String) : BookInv (OrderBook.empty sym) := by
  refine ⟨?_, ?_, ?_, ?_, ?_, ?_, ?_, ?_, ?_⟩ <;> simp [OrderBook.empty]

theorem bookInv_add (b : OrderBook) (o : Order) (now : ℕ)
    (hinv : BookInv b) (hfs : o.filled_size < o.size) (hsz : o.size < U64) :
    BookInv (b.add_order o now) := by
  have hfresh : ∀ t ∈ (b.buy_orders ++ b.sell_orders).map Resting.tag,
      t ≠ b.next_tag := by
    intro t ht
    obtain ⟨r1, hr1, hrt⟩ := List.mem_map.mp ht
    exact hrt ▸ Nat.ne_of_lt (hinv.tags_lt r1 hr1)
  have hmfresh : ∀ t ∈ b.order_map.map Prod.snd, t ≠ b.next_tag := by
    intro t ht
    obtain ⟨m1, hm1, hmt⟩ := List.mem_map.mp ht
    exact hmt ▸ Nat.ne_of_lt (hinv.map_lt m1 hm1)
  have hmap_snd : ((b.order_map ++ [(o.order_id, b.next_tag)]).map
      Prod.snd).Nodup := by
    rw [List.map_append]
    rw [List.nodup_append]
    refine ⟨hinv.map_snd_nodup, List.nodup_singleton _, ?_⟩
    intro t ht ht'
    rw [List.map_singleton, List.mem_singleton] at ht'
    exact hmfresh t ht ht'
  by_cases hside : o.side = OrderSide.Buy
  · have hb : b.add_order o now =
        { b with
          buy_orders := sort_buy_orders
            (b.buy_orders ++ [⟨b.next_tag, o⟩])
          order_map := b.order_map ++ [(o.order_id, b.next_tag)]
          last_update_time := now
          next_tag := b.next_tag + 1 } := by
      unfold OrderBook.add_order
      rw [if_pos hside]
    rw [hb]
    have hmm : ∀ r0 : Resting,
        r0 ∈ sort_buy_orders (b.buy_orders ++ [⟨b.next_tag, o⟩]) ↔
        r0 ∈ b.buy_orders ++ [(⟨b.next_tag, o⟩ : Resting)] := by
      intro r0
      unfold sort_buy_orders
      exact List.mem_insertionSort buyLE
    have hperm : List.Perm
        (sort_buy_orders (b.buy_orders ++ [⟨b.next_tag, o⟩]) ++
          b.sell_orders)
        ((⟨b.next_tag, o⟩ : Resting) :: (b.buy_orders ++ b.sell_orders)) := by
      exact ((List.perm_insertionSort buyLE _).append_right
        b.sell_orders).trans
        (List.Perm.append_right b.sell_orders List.perm_append_comm)
    constructor
    · intro r hr
      rcases List.mem_append.mp hr with h0 | h0
      · rcases List.mem_append.mp ((hmm r).mp h0) with h1 | h1
        · exact hinv.wf r (List.mem_append.mpr (Or.inl h1))
        · rw [List.mem_singleton.mp h1]
          exact ⟨hfs, hsz⟩
      · exact hinv.wf r (List.mem_append.mpr (Or.inr h0))
    · intro r hr
      rcases List.mem_append.mp hr with h0 | h0
      · rcases List.mem_append.mp ((hmm r).mp h0) with h1 | h1
        · exact List.mem_append.mpr (Or.inl
            (hinv.side_map r (List.mem_append.mpr (Or.inl h1))))
        · rw [List.mem_singleton.mp h1]
          exact List.mem_append.mpr (Or.inr (List.mem_singleton.mpr rfl))
      · exact List.mem_append.mpr (Or.inl
          (hinv.side_map r (List.mem_append.mpr (Or.inr h0))))
    · intro m hm
      rcases List.mem_append.mp hm with h0 | h0
      · obtain ⟨r1, hr1, ht1, hi1⟩ := hinv.map_side m h0
        rcases List.mem_append.mp hr1 with h2 | h2
        · exact ⟨r1, List.mem_append.mpr (Or.inl ((hmm r1).mpr
            (List.mem_append.mpr (Or.inl h2)))), ht1, hi1⟩
        · exact ⟨r1, List.mem_append.mpr (Or.inr h2), ht1, hi1⟩
      · rw [List.mem_singleton.mp h0]
        exact ⟨⟨b.next_tag, o⟩, List.mem_append.mpr (Or.inl ((hmm _).mpr
          (List.mem_append.mpr (Or.inr (List.mem_singleton.mpr rfl))))),
          rfl, rfl⟩
    · rw [(hperm.map Resting.tag).nodup_iff]
      rw [List.map_cons, List.nodup_cons]
      exact ⟨fun hc => hfresh b.next_tag hc rfl, hinv.tags_nodup⟩
    · intro r hr
      rcases List.mem_append.mp hr with h0 | h0
      · rcases List.mem_append.mp ((hmm r).mp h0) with h1 | h1
        · exact Nat.lt_succ_of_lt
            (hinv.tags_lt r (List.mem_append.mpr (Or.inl h1)))
        · rw [List.mem_singleton.mp h1]
          exact Nat.lt_succ_self _
      · exact Nat.lt_succ_of_lt
          (hinv.tags_lt r (List.mem_append.mpr (Or.inr h0)))
    · intro m hm
      rcases List.mem_append.mp hm with h0 | h0
      · exact Nat.lt_succ_of_lt (hinv.map_lt m h0)
      · rw [List.mem_singleton.mp h0]
        exact Nat.lt_succ_self _
    · exact hmap_snd
    · intro r hr
      rcases List.mem_append.mp ((hmm r).mp hr) with h1 | h1
      · exact hinv.buys_side r h1
      · rw [List.mem_singleton.mp h1]
        exact hside
    · exact hinv.sells_side
  · have hb : b.add_order o now =
        { b with
          sell_orders := sort_sell_orders
            (b.sell_orders ++ [⟨b.next_tag, o⟩])
          order_map := b.order_map ++ [(o.order_id, b.next_tag)]
          last_update_time := now
          next_tag := b.next_tag + 1 } := by
      unfold OrderBook.add_order
      rw [if_neg hside]
    rw [hb]
    have hmm : ∀ r0 : Resting,
        r0 ∈ sort_sell_orders (b.sell_orders ++ [⟨b.next_tag, o⟩]) ↔
        r0 ∈ b.sell_orders ++ [(⟨b.next_tag, o⟩ : Resting)] := by
      intro r0
      unfold sort_sell_orders
      exact List.mem_insertionSort sellLE
    have hperm : List.Perm
        (b.buy_orders ++
          sort_sell_orders (b.sell_orders ++ [⟨b.next_tag, o⟩]))
        ((⟨b.next_tag, o⟩ : Resting) :: (b.buy_orders ++ b.sell_orders)) := by
      exact ((List.Perm.append_left b.buy_orders
        (List.perm_insertionSort sellLE _))).trans
        ((List.Perm.append_left b.buy_orders
          List.perm_append_comm).trans List.perm_middle)
    constructor
    · intro r hr
      rcases List.mem_append.mp hr with h0 | h0
      · exact hinv.wf r (List.mem_append.mpr (Or.inl h0))
      · rcases List.mem_append.mp ((hmm r).mp h0) with h1 | h1
        · exact hinv.wf r (List.mem_append.mpr (Or.inr h1))
        · rw [List.mem_singleton.mp h1]
          exact ⟨hfs, hsz⟩
    · intro r hr
      rcases List.mem_append.mp hr with h0 | h0
      · exact List.mem_append.mpr (Or.inl
          (hinv.side_map r (List.mem_append.mpr (Or.inl h0))))
      · rcases List.mem_append.mp ((hmm r).mp h0) with h1 | h1
        · exact List.mem_append.mpr (Or.inl
            (hinv.side_map r (List.mem_append.mpr (Or.inr h1))))
        · rw [List.mem_singleton.mp h1]
          exact List.mem_append.mpr (Or.inr (List.mem_singleton.mpr rfl))
    · intro m hm
      rcases List.mem_append.mp hm with h0 | h0
      · obtain ⟨r1, hr1, ht1, hi1⟩ := hinv.map_side m h0
        rcases List.mem_append.mp hr1 with h2 | h2
        · exact ⟨r1, List.mem_append.mpr (Or.inl h2), ht1, hi1⟩
        · exact ⟨r1, List.mem_append.mpr (Or.inr ((hmm r1).mpr
            (List.mem_append.mpr (Or.inl h2)))), ht1, hi1⟩
      · rw [List.mem_singleton.mp h0]
        exact ⟨⟨b.next_tag, o⟩, List.mem_append.mpr (Or.inr ((hmm _).mpr
          (List.mem_append.mpr (Or.inr (List.mem_singleton.mpr rfl))))),
          rfl, rfl⟩
    · rw [(hperm.map Resting.tag).nodup_iff]
      rw [List.map_cons, List.nodup_cons]
      exact ⟨fun hc => hfresh b.next_tag hc rfl, hinv.tags_nodup⟩
    · intro r hr
      rcases List.mem_append.mp hr with h0 | h0
      · exact Nat.lt_succ_of_lt
          (hinv.tags_lt r (List.mem_append.mpr (Or.inl h0)))
      · rcases List.mem_append.mp ((hmm r).mp h0) with h1 | h1
        · exact Nat.lt_succ_of_lt
            (hinv.tags_lt r (List.mem_append.mpr (Or.inr h1)))
        · rw [List.mem_singleton.mp h1]
          exact Nat.lt_succ_self _
    · intro m hm
      rcases List.mem_append.mp hm with h0 | h0
      · exact Nat.lt_succ_of_lt (hinv.map_lt m h0)
      · rw [List.mem_singleton.mp h0]
        exact Nat.lt_succ_self _
    · exact hmap_snd
    · exact hinv.buys_side
    · intro r hr
      rcases List.mem_append.mp ((hmm r).mp hr) with h1 | h1
      · exact hinv.sells_side r h1
      · rw [List.mem_singleton.mp h1]
        cases hv : o.side
        · exact absurd hv hside
        · rfl

theorem bookInv_cancel (b : OrderBook) (id : String) (now : ℕ)
    (hinv : BookInv b) : BookInv (b.cancel_order id now).2 := by
  cases hfind : b.order_map.find? (fun e => e.1 = id) with
  | none =>
    rw [cancelOrder_not_found b id now hfind]
    exact hinv
  | some e =>
    obtain ⟨rw0, hrw0, htw0, _⟩ :=
      hinv.map_side e (List.mem_of_find?_eq_some hfind)
    have hfsome : ((b.buy_orders ++ b.sell_orders).find?
        (fun x => x.tag = e.2)).isSome := by
      rw [List.find?_isSome]
      exact ⟨rw0, hrw0, by simpa using htw0⟩
    obtain ⟨r, hr⟩ := Option.isSome_iff_exists.mp hfsome
    have hrmem := List.mem_of_find?_eq_some hr
    have hrtag : r.tag = e.2 := by simpa using List.find?_some hr
    have hspec := cancelOrder_found b id now e r hfind hr
    have hnd_b : (b.buy_orders.map Resting.tag).Nodup := by
      have := hinv.tags_nodup
      rw [List.map_append, List.nodup_append] at this
      exact this.1
    have hnd_s : (b.sell_orders.map Resting.tag).Nodup := by
      have := hinv.tags_nodup
      rw [List.map_append, List.nodup_append] at this
      exact this.2.1
    have hdisj : ∀ a ∈ b.buy_orders, ∀ c ∈ b.sell_orders,
        a.tag ≠ c.tag := by
      have := hinv.tags_nodup
      rw [List.map_append, List.nodup_append] at this
      intro a ha c hc hac
      exact this.2.2 (List.mem_map_of_mem Resting.tag ha)
        (hac ▸ List.mem_map_of_mem Resting.tag hc)
    have homap_nodup : b.order_map.Nodup :=
      hinv.map_snd_nodup.of_map
    have hemem : e ∈ b.order_map := List.mem_of_find?_eq_some hfind
    have hm_ne2 : ∀ m ∈ b.order_map.erase e, m.2 ≠ e.2 := by
      intro m hm hc
      have h1 := (homap_nodup.mem_erase_iff).mp hm
      exact h1.1 (List.inj_on_of_nodup_map hinv.map_snd_nodup h1.2 hemem hc)
    rcases List.mem_append.mp hrmem with hrb | hrs
    · have hside : r.ord.side = OrderSide.Buy := hinv.buys_side r hrb
      rw [hspec.1 hside]
      have hsub : ∀ r0 ∈ eraseTag b.buy_orders e.2 ++ b.sell_orders,
          r0 ∈ b.buy_orders ++ b.sell_orders ∧ r0.tag ≠ e.2 := by
        intro r0 hr0
        rcases List.mem_append.mp hr0 with h0 | h0
        · have := (mem_eraseTag_iff b.buy_orders e.2 hnd_b r0).mp h0
          exact ⟨List.mem_append.mpr (Or.inl this.1), this.2⟩
        · refine ⟨List.mem_append.mpr (Or.inr h0), ?_⟩
          intro hc
          exact hdisj r hrb r0 h0 (hrtag.trans hc.symm)
      refine ⟨?_, ?_, ?_, ?_, ?_, ?_, ?_, ?_, ?_⟩
      · intro r0 hr0
        exact hinv.wf r0 (hsub r0 hr0).1
      · intro r0 hr0
        have h1 := hsub r0 hr0
        have hne : (r0.ord.order_id, r0.tag) ≠ e := by
          intro hc
          exact h1.2 (congrArg Prod.snd hc)
        exact (List.mem_erase_of_ne hne).mpr (hinv.side_map r0 h1.1)
      · intro m hm
        have hmmap : m ∈ b.order_map := (List.erase_sublist _ _).subset hm
        obtain ⟨r1, hr1, ht1, hi1⟩ := hinv.map_side m hmmap
        have ht1ne : r1.tag ≠ e.2 := ht1 ▸ hm_ne2 m hm
        rcases List.mem_append.mp hr1 with h1 | h1
        · exact ⟨r1, List.mem_append.mpr
            (Or.inl (mem_eraseTag_of_ne b.buy_orders e.2 r1 h1 ht1ne)),
            ht1, hi1⟩
        · exact ⟨r1, List.mem_append.mpr (Or.inr h1), ht1, hi1⟩
      · exact hinv.tags_nodup.sublist
          (((eraseTag_sublist _ _).append_right _).map _)
      · intro r0 hr0
        exact hinv.tags_lt r0 (hsub r0 hr0).1
      · intro m hm
        exact hinv.map_lt m ((List.erase_sublist _ _).subset hm)
      · exact hinv.map_snd_nodup.sublist ((List.erase_sublist _ _).map _)
      · intro r0 hr0
        exact hinv.buys_side r0 ((eraseTag_sublist _ _).subset hr0)
      · exact hinv.sells_side
    · have hside : r.ord.side ≠ OrderSide.Buy := by
        rw [hinv.sells_side r hrs]
        intro hc
        cases hc
      rw [hspec.2 hside]
      have hsub : ∀ r0 ∈ b.buy_orders ++ eraseTag b.sell_orders e.2,
          r0 ∈ b.buy_orders ++ b.sell_orders ∧ r0.tag ≠ e.2 := by
        intro r0 hr0
        rcases List.mem_append.mp hr0 with h0 | h0
        · refine ⟨List.mem_append.mpr (Or.inl h0), ?_⟩
          intro hc
          exact hdisj r0 h0 r hrs (hc.trans hrtag.symm)
        · have := (mem_eraseTag_iff b.sell_orders e.2 hnd_s r0).mp h0
          exact ⟨List.mem_append.mpr (Or.inr this.1), this.2⟩
      refine ⟨?_, ?_, ?_, ?_, ?_, ?_, ?_, ?_, ?_⟩
      · intro r0 hr0
        exact hinv.wf r0 (hsub r0 hr0).1
      · intro r0 hr0
        have h1 := hsub r0 hr0
        have hne : (r0.ord.order_id, r0.tag) ≠ e := by
          intro hc
          exact h1.2 (congrArg Prod.snd hc)
        exact (List.mem_erase_of_ne hne).mpr (hinv.side_map r0 h1.1)
      · intro m hm
        have hmmap : m ∈ b.order_map := (List.erase_sublist _ _).subset hm
        obtain ⟨r1, hr1, ht1, hi1⟩ := hinv.map_side m hmmap
        have ht1ne : r1.tag ≠ e.2 := ht1 ▸ hm_ne2 m hm
        rcases List.mem_append.mp hr1 with h1 | h1
        · exact ⟨r1, List.mem_append.mpr (Or.inl h1), ht1, hi1⟩
        · exact ⟨r1, List.mem_append.mpr
            (Or.inr (mem_eraseTag_of_ne b.sell_orders e.2 r1 h1 ht1ne)),
            ht1, hi1⟩
      · exact hinv.tags_nodup.sublist
          ((List.Sublist.append_left (eraseTag_sublist _ _) _).map _)
      · intro r0 hr0
        exact hinv.tags_lt r0 (hsub r0 hr0).1
      · intro m hm
        exact hinv.map_lt m ((List.erase_sublist _ _).subset hm)
      · exact hinv.map_snd_nodup.sublist ((List.erase_sublist _ _).map _)
      · exact hinv.buys_side
      · intro r0 hr0
        exact hinv.sells_side r0 ((eraseTag_sublist _ _).subset hr0)

theorem matchLoop_inv :
    ∀ (contra : List Resting) (inc : Order) (other : List Resting)
      (omap : List (String × ℕ)) (now : ℕ),
      (∀ r ∈ contra ++ other,
        r.ord.filled_size < r.ord.size ∧ r.ord.size < U64) →
      (∀ r ∈ contra ++ other, (r.ord.order_id, r.tag) ∈ omap) →
      (∀ m ∈ omap, ∃ r ∈ contra ++ other,
        r.tag = m.2 ∧ r.ord.order_id = m.1) →
      ((contra ++ other).map Resting.tag).Nodup →
      (omap.map Prod.snd).Nodup →
      ((∀ r ∈ (matchLoop inc contra omap now).contra ++ other,
        r.ord.filled_size < r.ord.size ∧ r.ord.size < U64) ∧
       (∀ r ∈ (matchLoop inc contra omap now).contra ++ other,
        (r.ord.order_id, r.tag) ∈ (matchLoop inc contra omap now).omap) ∧
       (∀ m ∈ (matchLoop inc contra omap now).omap,
        ∃ r ∈ (matchLoop inc contra omap now).contra ++ other,
          r.tag = m.2 ∧ r.ord.order_id = m.1) ∧
       (∃ n, (matchLoop inc contra omap now).contra.map Resting.tag
         = (contra.map Resting.tag).drop n) ∧
       (∀ r ∈ (matchLoop inc contra omap now).contra, ∃ r0 ∈ contra,
         r0.tag = r.tag ∧ r.ord.side = r0.ord.side ∧
         r.ord.order_id = r0.ord.order_id) ∧
       ((matchLoop inc contra omap now).omap.Sublist omap))
  | [], inc, other, omap, now => by
    intro hwf hsm hms hnd hsnd
    rw [matchLoop]
    exact ⟨hwf, hsm, hms, ⟨0, rfl⟩, fun r hr => absurd hr (by simp),
      List.Sublist.refl _⟩
  | maker :: rest, inc, other, omap, now => by
    intro hwf hsm hms hnd hsnd
    by_cases h1 : inc.is_filled
    · have hres : matchLoop inc (maker :: rest) omap now =
          ⟨[], inc, maker :: rest, omap⟩ := by
        rw [matchLoop, if_pos h1]
      rw [hres]
      exact ⟨hwf, hsm, hms, ⟨0, rfl⟩,
        fun r hr => ⟨r, hr, rfl, rfl, rfl⟩, List.Sublist.refl _⟩
    · by_cases h2 : inc.type = OrderType.Market ∨ priceMatches inc maker
      · by_cases h3 : (maker.ord.fill
            (min inc.remaining_size maker.ord.remaining_size)).is_filled
        · have hres : matchLoop inc (maker :: rest) omap now =
              ⟨(if inc.side = OrderSide.Buy then
                  (⟨inc.order_id, maker.ord.order_id,
                    min inc.remaining_size maker.ord.remaining_size,
                    maker.ord.price, now⟩ : Trade)
                else
                  ⟨maker.ord.order_id, inc.order_id,
                    min inc.remaining_size maker.ord.remaining_size,
                    maker.ord.price, now⟩) ::
                (matchLoop
                  (inc.fill (min inc.remaining_size
                    maker.ord.remaining_size)) rest
                  (omap.erase (maker.ord.order_id, maker.tag))
                  now).trades,
                (matchLoop (inc.fill (min inc.remaining_size
                  maker.ord.remaining_size)) rest
                  (omap.erase (maker.ord.order_id, maker.tag))
                  now).incoming,
                (matchLoop (inc.fill (min inc.remaining_size
                  maker.ord.remaining_size)) rest
                  (omap.erase (maker.ord.order_id, maker.tag))
                  now).contra,
                (matchLoop (inc.fill (min inc.remaining_size
                  maker.ord.remaining_size)) rest
                  (omap.erase (maker.ord.order_id, maker.tag))
                  now).omap⟩ := by
            rw [matchLoop]
            simp only [h1, Bool.false_eq_true, if_false]
            rw [if_pos h2]
            simp only [h3, if_true]
          rw [hres]
          have hnd' : ((rest ++ other).map Resting.tag).Nodup := by
            rw [List.cons_append, List.map_cons, List.nodup_cons] at hnd
            exact hnd.2
          have hmfresh : maker.tag ∉ (rest ++ other).map Resting.tag := by
            rw [List.cons_append, List.map_cons, List.nodup_cons] at hnd
            exact hnd.1
          have hmem_maker : maker ∈ (maker :: rest) ++ other :=
            List.mem_append.mpr (Or.inl (List.mem_cons_self _ _))
          have hmm : (maker.ord.order_id, maker.tag) ∈ omap :=
            hsm maker hmem_maker
          have hup : ∀ r ∈ rest ++ other,
              r ∈ (maker :: rest) ++ other := by
            intro r hr
            rcases List.mem_append.mp hr with h0 | h0
            · exact List.mem_append.mpr
                (Or.inl (List.mem_cons_of_mem _ h0))
            · exact List.mem_append.mpr (Or.inr h0)
          have htagne : ∀ r ∈ rest ++ other, r.tag ≠ maker.tag := by
            intro r hr hc
            exact hmfresh (hc ▸ List.mem_map_of_mem Resting.tag hr)
          have hsm' : ∀ r ∈ rest ++ other, (r.ord.order_id, r.tag) ∈
              omap.erase (maker.ord.order_id, maker.tag) := by
            intro r hr
            have hne : (r.ord.order_id, r.tag)
                ≠ (maker.ord.order_id, maker.tag) := by
              intro hc
              exact htagne r hr (congrArg Prod.snd hc)
            exact (List.mem_erase_of_ne hne).mpr (hsm r (hup r hr))
          have homap_nodup : omap.Nodup := hsnd.of_map
          have hms' : ∀ m ∈ omap.erase (maker.ord.order_id, maker.tag),
              ∃ r ∈ rest ++ other, r.tag = m.2 ∧ r.ord.order_id = m.1 := by
            intro m hm
            have hm2 := (homap_nodup.mem_erase_iff).mp hm
            obtain ⟨r1, hr1, ht1, hi1⟩ := hms m hm2.2
            have hmne2 : m.2 ≠ maker.tag := by
              intro hc
              exact hm2.1 (List.inj_on_of_nodup_map hsnd hm2.2 hmm hc)
            rcases List.mem_append.mp hr1 with h0 | h0
            · rcases List.mem_cons.mp h0 with h4 | h4
              · exact absurd (ht1.symm.trans (congrArg Resting.tag h4)) hmne2
              · exact ⟨r1, List.mem_append.mpr (Or.inl h4), ht1, hi1⟩
            · exact ⟨r1, List.mem_append.mpr (Or.inr h0), ht1, hi1⟩
          have hwf' : ∀ r ∈ rest ++ other,
              r.ord.filled_size < r.ord.size ∧ r.ord.size < U64 :=
            fun r hr => hwf r (hup r hr)
          have hsnd' : ((omap.erase
              (maker.ord.order_id, maker.tag)).map Prod.snd).Nodup :=
            hsnd.sublist ((List.erase_sublist _ _).map _)
          have IH := matchLoop_inv rest
            (inc.fill (min inc.remaining_size maker.ord.remaining_size))
            other (omap.erase (maker.ord.order_id, maker.tag)) now
            hwf' hsm' hms' hnd' hsnd'
          refine ⟨IH.1, IH.2.1, IH.2.2.1, ?_, ?_, ?_⟩
          · obtain ⟨n, hn⟩ := IH.2.2.2.1
            exact ⟨n + 1, by rw [hn, List.map_cons, List.drop_succ_cons]⟩
          · intro r hr
            obtain ⟨r0, hr0, hfacts⟩ := IH.2.2.2.2.1 r hr
            exact ⟨r0, List.mem_cons_of_mem _ hr0, hfacts⟩
          · exact IH.2.2.2.2.2.trans (List.erase_sublist _ _)
        · have hres : matchLoop inc (maker :: rest) omap now =
              ⟨[(if inc.side = OrderSide.Buy then
                  (⟨inc.order_id, maker.ord.order_id,
                    min inc.remaining_size maker.ord.remaining_size,
                    maker.ord.price, now⟩ : Trade)
                else
                  ⟨maker.ord.order_id, inc.order_id,
                    min inc.remaining_size maker.ord.remaining_size,
                    maker.ord.price, now⟩)],
                inc.fill (min inc.remaining_size maker.ord.remaining_size),
                (⟨maker.tag, maker.ord.fill (min inc.remaining_size
                  maker.ord.remaining_size)⟩ : Resting) :: rest,
                omap⟩ := by
            rw [matchLoop]
            simp only [h1, Bool.false_eq_true, if_false]
            rw [if_pos h2]
            simp only [h3, Bool.false_eq_true, if_false]
          rw [hres]
          have hwf_maker := hwf maker
            (List.mem_append.mpr (Or.inl (List.mem_cons_self _ _)))
          have hfs' : (maker.ord.fill (min inc.remaining_size
              maker.ord.remaining_size)).filled_size <
              (maker.ord.fill (min inc.remaining_size
                maker.ord.remaining_size)).size := by
            have : ¬ ((maker.ord.fill (min inc.remaining_size
                maker.ord.remaining_size)).size ≤
                (maker.ord.fill (min inc.remaining_size
                  maker.ord.remaining_size)).filled_size) := by
              simpa [Order.is_filled] using h3
            omega
          refine ⟨?_, ?_, ?_, ⟨0, rfl⟩, ?_, List.Sublist.refl _⟩
          · intro r hr
            rcases List.mem_append.mp hr with h0 | h0
            · rcases List.mem_cons.mp h0 with h4 | h4
              · rw [h4]
                refine ⟨hfs', ?_⟩
                rw [fill_size_field]
                exact hwf_maker.2
              · exact hwf r (List.mem_append.mpr
                  (Or.inl (List.mem_cons_of_mem _ h4)))
            · exact hwf r (List.mem_append.mpr (Or.inr h0))
          · intro r hr
            rcases List.mem_append.mp hr with h0 | h0
            · rcases List.mem_cons.mp h0 with h4 | h4
              · rw [h4]
                show ((maker.ord.fill _).order_id, maker.tag) ∈ omap
                rw [fill_order_id]
                exact hsm maker (List.mem_append.mpr
                  (Or.inl (List.mem_cons_self _ _)))
              · exact hsm r (List.mem_append.mpr
                  (Or.inl (List.mem_cons_of_mem _ h4)))
            · exact hsm r (List.mem_append.mpr (Or.inr h0))
          · intro m hm
            obtain ⟨r1, hr1, ht1, hi1⟩ := hms m hm
            rcases List.mem_append.mp hr1 with h0 | h0
            · rcases List.mem_cons.mp h0 with h4 | h4
              · refine ⟨⟨maker.tag, maker.ord.fill (min inc.remaining_size
                  maker.ord.remaining_size)⟩,
                  List.mem_append.mpr (Or.inl (List.mem_cons_self _ _)),
                  ?_, ?_⟩
                · show maker.tag = m.2
                  exact h4 ▸ ht1
                · show (maker.ord.fill _).order_id = m.1
                  rw [fill_order_id]
                  exact h4 ▸ hi1
              · exact ⟨r1, List.mem_append.mpr
                  (Or.inl (List.mem_cons_of_mem _ h4)), ht1, hi1⟩
            · exact ⟨r1, List.mem_append.mpr (Or.inr h0), ht1, hi1⟩
          · intro r hr
            rcases List.mem_cons.mp hr with h4 | h4
            · refine ⟨maker, List.mem_cons_self _ _, ?_, ?_, ?_⟩
              · rw [h4]
              · rw [h4]
                exact fill_side maker.ord _
              · rw [h4]
                exact fill_order_id maker.ord _
            · exact ⟨r, List.mem_cons_of_mem _ h4, rfl, rfl, rfl⟩
      · have hres : matchLoop inc (maker :: rest) omap now =
            ⟨[], inc, maker :: rest, omap⟩ := by
          rw [matchLoop]
          simp only [h1, Bool.false_eq_true, if_false]
          rw [if_neg h2]
        rw [hres]
        exact ⟨hwf, hsm, hms, ⟨0, rfl⟩,
          fun r hr => ⟨r, hr, rfl, rfl, rfl⟩, List.Sublist.refl _⟩

theorem bookInv_match (b : OrderBook) (inc : Order) (now : ℕ)
    (hinv : BookInv b) : BookInv (b.match_order inc now).2.2 := by
  have hswap : ∀ r : Resting, r ∈ b.sell_orders ++ b.buy_orders ↔
      r ∈ b.buy_orders ++ b.sell_orders := fun r =>
    ⟨fun h => List.mem_append.mpr (List.mem_append.mp h).symm,
     fun h => List.mem_append.mpr (List.mem_append.mp h).symm⟩
  by_cases hside : inc.side = OrderSide.Buy
  · have hb' : (b.match_order inc now).2.2 =
        { b with
          sell_orders := (matchLoop inc b.sell_orders b.order_map
            now).contra
          order_map := (matchLoop inc b.sell_orders b.order_map now).omap
          last_update_time := now } := by
      unfold OrderBook.match_order
      rw [if_pos hside]
    have hnd_swap : ((b.sell_orders ++ b.buy_orders).map
        Resting.tag).Nodup :=
      ((List.perm_append_comm).map Resting.tag).nodup_iff.mpr
        hinv.tags_nodup
    have ML := matchLoop_inv b.sell_orders inc b.buy_orders b.order_map
      now
      (fun r hr => hinv.wf r ((hswap r).mp hr))
      (fun r hr => hinv.side_map r ((hswap r).mp hr))
      (fun m hm => by
        obtain ⟨r, hr, hfacts⟩ := hinv.map_side m hm
        exact ⟨r, (hswap r).mpr hr, hfacts⟩)
      hnd_swap hinv.map_snd_nodup
    have hswap2 : ∀ r : Resting,
        r ∈ b.buy_orders ++
          (matchLoop inc b.sell_orders b.order_map now).contra ↔
        r ∈ (matchLoop inc b.sell_orders b.order_map now).contra ++
          b.buy_orders := fun r =>
      ⟨fun h => List.mem_append.mpr (List.mem_append.mp h).symm,
       fun h => List.mem_append.mpr (List.mem_append.mp h).symm⟩
    rw [hb']
    obtain ⟨n, hn⟩ := ML.2.2.2.1
    refine ⟨?_, ?_, ?_, ?_, ?_, ?_, ?_, ?_, ?_⟩
    · intro r hr
      exact ML.1 r ((hswap2 r).mp hr)
    · intro r hr
      exact ML.2.1 r ((hswap2 r).mp hr)
    · intro m hm
      obtain ⟨r, hr, hfacts⟩ := ML.2.2.1 m hm
      exact ⟨r, (hswap2 r).mpr hr, hfacts⟩
    · rw [List.map_append, hn]
      have hsub : List.Sublist
          (b.buy_orders.map Resting.tag ++
            (b.sell_orders.map Resting.tag).drop n)
          (b.buy_orders.map Resting.tag ++
            b.sell_orders.map Resting.tag) :=
        List.Sublist.append_left (List.drop_sublist _ _) _
      refine List.Nodup.sublist hsub ?_
      rw [← List.map_append]
      exact hinv.tags_nodup
    · intro r hr
      rcases List.mem_append.mp hr with h0 | h0
      · exact hinv.tags_lt r (List.mem_append.mpr (Or.inl h0))
      · obtain ⟨r0, hr0, ht0, _⟩ := ML.2.2.2.2.1 r h0
        exact ht0 ▸ hinv.tags_lt r0 (List.mem_append.mpr (Or.inr hr0))
    · intro m hm
      exact hinv.map_lt m (ML.2.2.2.2.2.subset hm)
    · exact hinv.map_snd_nodup.sublist (ML.2.2.2.2.2.map _)
    · exact hinv.buys_side
    · intro r hr
      obtain ⟨r0, hr0, _, hs0, _⟩ := ML.2.2.2.2.1 r hr
      rw [hs0]
      exact hinv.sells_side r0 hr0
  · have hb' : (b.match_order inc now).2.2 =
        { b with
          buy_orders := (matchLoop inc b.buy_orders b.order_map
            now).contra
          order_map := (matchLoop inc b.buy_orders b.order_map now).omap
          last_update_time := now } := by
      unfold OrderBook.match_order
      rw [if_neg hside]
    have ML := matchLoop_inv b.buy_orders inc b.sell_orders b.order_map
      now hinv.wf hinv.side_map hinv.map_side hinv.tags_nodup
      hinv.map_snd_nodup
    rw [hb']
    obtain ⟨n, hn⟩ := ML.2.2.2.1
    refine ⟨ML.1, ML.2.1, ML.2.2.1, ?_, ?_, ?_, ?_, ?_, ?_⟩
    · rw [List.map_append, hn]
      have hsub : List.Sublist
          ((b.buy_orders.map Resting.tag).drop n ++
            b.sell_orders.map Resting.tag)
          (b.buy_orders.map Resting.tag ++
            b.sell_orders.map Resting.tag) :=
        List.Sublist.append_right (List.drop_sublist _ _) _
      refine List.Nodup.sublist hsub ?_
      rw [← List.map_append]
      exact hinv.tags_nodup
    · intro r hr
      rcases List.mem_append.mp hr with h0 | h0
      · obtain ⟨r0, hr0, ht0, _⟩ := ML.2.2.2.2.1 r h0
        exact ht0 ▸ hinv.tags_lt r0 (List.mem_append.mpr (Or.inl hr0))
      · exact hinv.tags_lt r (List.mem_append.mpr (Or.inr h0))
    · intro m hm
      exact hinv.map_lt m (ML.2.2.2.2.2.subset hm)
    · exact hinv.map_snd_nodup.sublist (ML.2.2.2.2.2.map _)
    · intro r hr
      obtain ⟨r0, hr0, _, hs0, _⟩ := ML.2.2.2.2.1 r hr
      rw [hs0]
      exact hinv.buys_side r0 hr0
    · exact hinv.sells_side

theorem reach_inv (sym : String) (b : OrderBook) (h : Reach sym b) :
    BookInv b := by
  induction h with
  | init => exact bookInv_empty sym
  | add b o now _ _ _ hfs hsz ih => exact bookInv_add b o now ih hfs hsz
  | cancel b id now _ ih => exact bookInv_cancel b id now ih
  | matchOp b o now _ _ _ ih => exact bookInv_match b o now ih

/-- Claim C3.  After any sequence of `add_order`, `cancel_order` and
`match_order` operations on a fresh book — including sequences where two
resting orders share one id — every resting order has
`0 < remaining ≤ size`, every order in a side vector has its entry in
the id multimap, and every multimap entry points at an order resting in
exactly one side. -/
theorem C3_book_invariants (sym : String) (b : OrderBook)
    (h : Reach sym b) :
    (∀ r ∈ b.buy_orders ++ b.sell_orders,
      0 < r.ord.remaining_size ∧ r.ord.remaining_size ≤ r.ord.size) ∧
    (∀ r ∈ b.buy_orders ++ b.sell_orders,
      ∃ m ∈ b.order_map, m.1 = r.ord.order_id ∧ m.2 = r.tag) ∧
    (∀ m ∈ b.order_map,
      (∃ r ∈ b.buy_orders, r.tag = m.2 ∧ r.ord.order_id = m.1 ∧
        ¬ ∃ rq ∈ b.sell_orders, rq.tag = m.2) ∨
      (∃ r ∈ b.sell_orders, r.tag = m.2 ∧ r.ord.order_id = m.1 ∧
        ¬ ∃ rq ∈ b.buy_orders, rq.tag = m.2)) := by
  have hinv := reach_inv sym b h
  have hdisj : ∀ a ∈ b.buy_orders, ∀ c ∈ b.sell_orders,
      a.tag ≠ c.tag := by
    have := hinv.tags_nodup
    rw [List.map_append, List.nodup_append] at this
    intro a ha c hc hac
    exact this.2.2 (List.mem_map_of_mem Resting.tag ha)
      (hac ▸ List.mem_map_of_mem Resting.tag hc)
  refine ⟨?_, ?_, ?_⟩
  · intro r hr
    have hw := hinv.wf r hr
    rw [remaining_size_eq r.ord (le_of_lt hw.1) hw.2]
    omega
  · intro r hr
    exact ⟨(r.ord.order_id, r.tag), hinv.side_map r hr, rfl, rfl⟩
  · intro m hm
    obtain ⟨r, hr, ht, hi⟩ := hinv.map_side m hm
    rcases List.mem_append.mp hr with h0 | h0
    · refine Or.inl ⟨r, h0, ht, hi, ?_⟩
      intro ⟨rq, hrq, hq⟩
      exact hdisj r h0 rq hrq (ht.trans hq.symm)
    · refine Or.inr ⟨r, h0, ht, hi, ?_⟩
      intro ⟨rq, hrq, hq⟩
      exact hdisj rq hrq r h0 (hq.trans ht.symm)

theorem C3_witness :
    0 < (⟨1, Order.mkLimit "U" OrderSide.Buy "T" 200 11 3⟩ :
      Resting).ord.remaining_size ∧
    (⟨1, Order.mkLimit "U" OrderSide.Buy "T" 200 11 3⟩ :
      Resting).ord.remaining_size ≤
      (⟨1, Order.mkLimit "U" OrderSide.Buy "T" 200 11 3⟩ :
        Resting).ord.size :=
  (C3_book_invariants "T"
    (((OrderBook.empty "T").add_order
      (Order.mkLimit "U" OrderSide.Buy "T" 100 10 1) 2).add_order
      (Order.mkLimit "U" OrderSide.Buy "T" 200 11 3) 4)
    (Reach.add _ _ _
      (Reach.add _ _ _ Reach.init rfl rfl (by decide) (by decide))
      rfl rfl (by decide) (by decide))).1
    ⟨1, Order.mkLimit "U" OrderSide.Buy "T" 200 11 3⟩ (by decide)

end FinStack
